import Mathlib

/-!
mp3download: a shallow embedding of `main.go`.

A Go `string` is a finite sequence of bytes.  It is embedded as a `List Nat`
(every element of a real string is below 256; the theorems hold for every
list).  The functions of the Go standard library that `main.go` calls are
embedded by what Go defines them to do: `utf8.DecodeRuneInString` and the
`range` loop over a string after their Go code, `unicode.IsSpace` after the
White_Space table, `strings.TrimSpace`, `strings.ReplaceAll`,
`strings.Fields` and `strings.Join` on the runes and bytes of the string,
`fmt.Sprintf("%d", n)` as the decimal digits.  The calls into the operating
system (`os.Stat`, `os.Executable`, `exec.LookPath`, `filepath.Dir`,
`filepath.Join`) are parameters or a set of existing paths.  The functions
and variables of `main.go` keep their names.

The file has the definitions first: the Go library, the functions of
`main.go`, the reference definition of the sanitizer after the words of the
spec, and the definitions the proofs use.  The theorems follow.
-/

namespace Mp3Download

/-! ## Go strings -/

/-- A Go string: its bytes. -/
abbrev GoString := List Nat

/-- An ASCII string literal of the source, as its bytes. -/
def lit (s : String) : GoString := s.toList.map Char.toNat

/-! ## `unicode/utf8` and `unicode` -/

/-- The rune `utf8.RuneError` (U+FFFD). -/
def RuneError : Nat := 0xFFFD

/-- An entry of the table `first` of `unicode/utf8`, with the accept range
of the second byte looked up: `as` is an ASCII byte, `xx` an invalid first
byte, `lead sz lo hi` the first byte of a sequence of `sz` bytes whose
second byte lies in `lo..hi`. -/
inductive First where
  | as
  | xx
  | lead (sz lo hi : Nat)
deriving DecidableEq, Repr

/-- The table `first` of `unicode/utf8` (with `acceptRanges`). -/
def first (b : Nat) : First :=
  if b < 0x80 then .as
  else if b < 0xC2 then .xx
  else if b < 0xE0 then .lead 2 0x80 0xBF
  else if b = 0xE0 then .lead 3 0xA0 0xBF
  else if b < 0xED then .lead 3 0x80 0xBF
  else if b = 0xED then .lead 3 0x80 0x9F
  else if b < 0xF0 then .lead 3 0x80 0xBF
  else if b = 0xF0 then .lead 4 0x90 0xBF
  else if b < 0xF4 then .lead 4 0x80 0xBF
  else if b = 0xF4 then .lead 4 0x80 0x8F
  else .xx

/-- Go `utf8.DecodeRuneInString`: the first rune of `s` and its width in
bytes; `(RuneError, 0)` for the empty string and `(RuneError, 1)` for an
invalid encoding.  The masks `s0&mask2`, `s1&maskx`, ... are written with
`%` and the shifts with `*`. -/
def DecodeRuneInString (s : GoString) : Nat × Nat :=
  let n := s.length
  if n < 1 then (RuneError, 0) else
  let s0 := s.getD 0 0
  match first s0 with
  | .as => (s0, 1)
  | .xx => (RuneError, 1)
  | .lead sz lo hi =>
    if n < sz then (RuneError, 1) else
    let s1 := s.getD 1 0
    if s1 < lo ∨ hi < s1 then (RuneError, 1) else
    if sz ≤ 2 then ((s0 % 32) * 64 + s1 % 64, 2) else
    let s2 := s.getD 2 0
    if s2 < 0x80 ∨ 0xBF < s2 then (RuneError, 1) else
    if sz ≤ 3 then ((s0 % 16) * 4096 + (s1 % 64) * 64 + s2 % 64, 3) else
    let s3 := s.getD 3 0
    if s3 < 0x80 ∨ 0xBF < s3 then (RuneError, 1) else
    ((s0 % 8) * 262144 + (s1 % 64) * 4096 + (s2 % 64) * 64 + s3 % 64, 4)

/-- Go `unicode.IsSpace`: the Unicode White_Space property. -/
def IsSpace (r : Nat) : Bool :=
  r = 0x09 || r = 0x0A || r = 0x0B || r = 0x0C || r = 0x0D || r = 0x20 ||
  r = 0x85 || r = 0xA0 || r = 0x1680 || (0x2000 ≤ r && r ≤ 0x200A) ||
  r = 0x2028 || r = 0x2029 || r = 0x202F || r = 0x205F || r = 0x3000

/-- One iteration of `for i, r := range s`: the rune and the bytes it was
decoded from. -/
structure Tok where
  rune : Nat
  bytes : GoString
deriving DecidableEq, Repr

/-- The loop `for _, r := range s`, with `skip` bytes of the current rune
still to pass over. -/
def rangeAux : Nat → GoString → List Tok
  | _, [] => []
  | skip + 1, _ :: t => rangeAux skip t
  | 0, b :: t =>
    let d := DecodeRuneInString (b :: t)
    ⟨d.1, (b :: t).take d.2⟩ :: rangeAux (d.2 - 1) t

/-- The runes of `s` in order, as `for _, r := range s` yields them. -/
def range (s : GoString) : List Tok := rangeAux 0 s

/-- The bytes of a list of runes, concatenated. -/
def bytesOf (ts : List Tok) : GoString := (ts.map Tok.bytes).flatten

/-- Whether the rune of a token is white space. -/
def Tok.space (t : Tok) : Bool := IsSpace t.rune

/-! ## `strings` -/

/-- Go `strings.TrimSpace`: `s` without its leading and trailing white space,
as defined by Unicode. -/
def TrimSpace (s : GoString) : GoString :=
  bytesOf (((range s).dropWhile Tok.space).rdropWhile Tok.space)

/-- The scan of `strings.ReplaceAll` for a non-empty `old`, with `skip` bytes
of the occurrence just replaced still to pass over. -/
def replaceAux (old new : GoString) : Nat → GoString → GoString
  | _, [] => []
  | skip + 1, _ :: t => replaceAux old new skip t
  | 0, b :: t =>
    if old.isPrefixOf (b :: t) then new ++ replaceAux old new (old.length - 1) t
    else b :: replaceAux old new 0 t

/-- Go `strings.ReplaceAll`: every non-overlapping instance of `old` replaced
by `new`; an empty `old` matches before every rune and at the end. -/
def ReplaceAll (s old new : GoString) : GoString :=
  if old = [] then new ++ ((range s).map (fun t => t.bytes ++ new)).flatten
  else replaceAux old new 0 s

/-- The loop of `strings.FieldsFunc(s, unicode.IsSpace)`: `cur` is the field
being read (`start >= 0`) or `none` (`start < 0`). -/
def fieldsLoop : List Tok → Option GoString → List GoString
  | [], none => []
  | [], some w => [w]
  | t :: ts, none =>
    if t.space then fieldsLoop ts none else fieldsLoop ts (some t.bytes)
  | t :: ts, some w =>
    if t.space then w :: fieldsLoop ts none else fieldsLoop ts (some (w ++ t.bytes))

/-- Go `strings.Fields`: the maximal substrings of `s` without white space. -/
def Fields (s : GoString) : List GoString := fieldsLoop (range s) none

/-- Go `strings.Join`. -/
def Join : List GoString → GoString → GoString
  | [], _ => []
  | [a], _ => a
  | a :: b :: rest, sep => a ++ sep ++ Join (b :: rest) sep

/-! ## `main.go`: `sanitizeFileName` -/

/-- The target operating system, as far as `os.PathSeparator` depends on it. -/
inductive GOOS where
  | windows
  | other
deriving DecidableEq, Repr

/-- Go `os.PathSeparator`. -/
def PathSeparator : GOOS → Nat
  | .windows => 0x5C
  | .other => 0x2F

/-- The slice `bad` of `sanitizeFileName`. -/
def bad : List GoString :=
  [lit "/", lit "\\", lit ":", lit "*", lit "?", lit "\"", lit "<", lit ">", lit "|"]

/-- The function `sanitizeFileName` of `main.go`. -/
def sanitizeFileName (goos : GOOS) (s : GoString) : GoString :=
  let s := TrimSpace s
  let s := ReplaceAll s [PathSeparator goos] (lit "-")
  let s := bad.foldl (fun s b => ReplaceAll s b (lit "-")) s
  let s := Join (Fields s) (lit " ")
  if s.length > 200 then s.take 200 else s

/-! ## `fmt`, `path/filepath` -/

/-- The decimal digits of `n`, most significant first, with `fuel` bounding
the number of digits. -/
def formatIntAux : Nat → Nat → GoString
  | 0, _ => []
  | fuel + 1, n =>
    if n < 10 then [0x30 + n] else formatIntAux fuel (n / 10) ++ [0x30 + n % 10]

/-- Go `fmt.Sprintf("%d", n)` for a non-negative `n`. -/
def formatInt (n : Nat) : GoString := formatIntAux (n + 1) n

/-- Go `filepath.Join(dir, name)` for a clean directory path `dir` and a name
`name` of one path element, which `filepath.Clean` leaves as they are. -/
def filepathJoin (goos : GOOS) (dir name : GoString) : GoString :=
  dir ++ PathSeparator goos :: name

/-! ## `main.go`: `convertToMP3` -/

/-- The slice `args` of `convertToMP3` when `exec.Command(ffmpegPath, args...)`
is called; `numCPU` is `runtime.NumCPU()`. -/
def convertToMP3Args (numCPU : Nat) (inputPath outputPath title artist : GoString) :
    List GoString :=
  let args := [lit "-y", lit "-hide_banner", lit "-loglevel", lit "warning", lit "-nostdin",
    lit "-i", inputPath, lit "-vn", lit "-codec:a", lit "libmp3lame", lit "-b:a", lit "128k",
    lit "-ar", lit "44100", lit "-ac", lit "2", lit "-threads", formatInt numCPU]
  let args := if title ≠ [] then args ++ [lit "-metadata", lit "title=" ++ title] else args
  let args := if artist ≠ [] then args ++ [lit "-metadata", lit "artist=" ++ artist] else args
  args ++ [lit "-id3v2_version", lit "3", outputPath]

/-- The command `convertToMP3` runs: the program and its arguments. -/
structure Cmd where
  Path : GoString
  Args : List GoString
deriving DecidableEq, Repr

/-- The function `convertToMP3` of `main.go`, up to `cmd.Run()`: the command
that is run. -/
def convertToMP3 (numCPU : Nat) (inputPath outputPath ffmpegPath title artist : GoString) : Cmd :=
  ⟨ffmpegPath, convertToMP3Args numCPU inputPath outputPath title artist⟩

/-! ## `main.go`: `extractFFmpegOnce` -/

/-- What `extractFFmpegOnce` asks of the operating system. -/
structure FFmpegEnv where
  /-- Go `os.Executable()`: the path of the executable, or `none` for an error. -/
  Executable : Option GoString
  /-- Go `filepath.Dir`. -/
  Dir : GoString → GoString
  /-- Go `filepath.Join`. -/
  JoinPath : GoString → GoString → GoString
  /-- Go `os.Stat`: `some isDir`, or `none` for an error. -/
  Stat : GoString → Option Bool
  /-- Go `exec.LookPath`: the path found, or `none` for an error. -/
  LookPath : GoString → Option GoString

/-- The package variables `ffmpegOnce`, `ffmpegPathCache`, `ffmpegErr`. -/
structure FFmpegOnce where
  done : Bool
  ffmpegPathCache : GoString
  ffmpegErr : Option GoString
deriving DecidableEq, Repr

/-- The package variables when the process starts. -/
def FFmpegOnce.init : FFmpegOnce := ⟨false, [], none⟩

/-- The text of the error of `extractFFmpegOnce`. -/
def ffmpegNotFound : GoString :=
  lit "ffmpeg not found: place ffmpeg (or ffmpeg.exe on Windows) next to the executable or install ffmpeg on PATH"

/-- One loop `for _, name := range names` of `extractFFmpegOnce`: the first
candidate that `os.Stat` finds and that is not a directory. -/
def firstCandidate (env : FFmpegEnv) (exeDir : GoString) : List GoString → Option GoString
  | [] => none
  | name :: rest =>
    let cand := env.JoinPath exeDir name
    match env.Stat cand with
    | some false => some cand
    | _ => firstCandidate env exeDir rest

/-- The two loops over the sidecar names of `extractFFmpegOnce` (lines
391-406), with the executable in `exeDir`: the `vendor/` names first, then
the names next to the executable. -/
def sidecarCandidate (env : FFmpegEnv) (exeDir : GoString) : Option GoString :=
  match firstCandidate env exeDir [lit "vendor/ffmpeg", lit "vendor/ffmpeg.exe"] with
  | some cand => some cand
  | none => firstCandidate env exeDir [lit "ffmpeg", lit "ffmpeg.exe"]

/-- The function that `extractFFmpegOnce` passes to `ffmpegOnce.Do`. -/
def resolveFFmpeg (env : FFmpegEnv) (st : FFmpegOnce) : FFmpegOnce :=
  let sidecar : Option GoString :=
    match env.Executable with
    | some exe => sidecarCandidate env (env.Dir exe)
    | none => none
  match sidecar with
  | some cand => { st with ffmpegPathCache := cand }
  | none =>
    match env.LookPath (lit "ffmpeg") with
    | some sysPath => { st with ffmpegPathCache := sysPath }
    | none => { st with ffmpegErr := some ffmpegNotFound }

/-- The function `extractFFmpegOnce` of `main.go`: the package variables
after the call, and the pair it returns. -/
def extractFFmpegOnce (env : FFmpegEnv) (st : FFmpegOnce) :
    FFmpegOnce × (GoString × Option GoString) :=
  let st := if st.done then st else { resolveFFmpeg env st with done := true }
  (st, (st.ffmpegPathCache, st.ffmpegErr))

/-! ## `main.go`: `downloadVideoToDir`, the unique file name -/

/-- The name `fmt.Sprintf("%s.%s", base, ext)`. -/
def plainName (base ext : GoString) : GoString := base ++ lit "." ++ ext

/-- The name `fmt.Sprintf("%s-%d.%s", base, i, ext)`. -/
def suffixedName (base : GoString) (i : Nat) (ext : GoString) : GoString :=
  base ++ lit "-" ++ formatInt i ++ lit "." ++ ext

/-- What the loop of `downloadVideoToDir` learns from `os.Stat(outPath)`. -/
inductive StatOutcome where
  /-- No error: the path exists. -/
  | found
  /-- An error for which `os.IsNotExist(err)` is true. -/
  | notExist
  /-- Another error, for which `os.IsNotExist(err)` is false. -/
  | failed
deriving DecidableEq, Repr

/-- Go `os.Stat` on a file system whose existing paths are `files`: a path
with a NUL byte is refused with `EINVAL` before the file system is asked,
every other path is found or reported as not existing. -/
def osStat (files : List GoString) (p : GoString) : StatOutcome :=
  if 0 ∈ p then .failed else if p ∈ files then .found else .notExist

/-- The loop `for i := 1; ; i++` of `downloadVideoToDir`, run for at most
`fuel` iterations: `stat` is `os.Stat`, `outPath` the path tried next.  The
loop ends only when `os.IsNotExist(err)` holds (line 330). -/
def uniquePathLoop (goos : GOOS) (stat : GoString → StatOutcome) (destDir base ext : GoString) :
    Nat → Nat → GoString → Option GoString
  | 0, _, _ => none
  | fuel + 1, i, outPath =>
    if stat outPath = .notExist then some outPath
    else uniquePathLoop goos stat destDir base ext fuel (i + 1)
      (filepathJoin goos destDir (suffixedName base i ext))

/-- The path under which `downloadVideoToDir` creates its file (lines
325-334), `none` when the loop has not ended after `fuel` iterations. -/
def uniquePath (goos : GOOS) (stat : GoString → StatOutcome) (destDir base ext : GoString)
    (fuel : Nat) : Option GoString :=
  uniquePathLoop goos stat destDir base ext fuel 1 (filepathJoin goos destDir (plainName base ext))

/-! ## `main.go`: the list mode of `main` -/

/-- The struct `dlResult` of `main`. -/
structure dlResult where
  link : GoString
  path : GoString
  title : GoString
  artist : GoString
  err : Option GoString
deriving DecidableEq, Repr

/-- The output path a convert worker derives for a job (lines 166-170);
`join` is `filepath.Join`. -/
def convertOutPath (goos : GOOS) (join : GoString → GoString → GoString) (outDir : GoString)
    (job : dlResult) : GoString :=
  let base := sanitizeFileName goos job.title
  let base := if base = [] then job.link else base
  join outDir (base ++ lit ".mp3")

/-- The loop `for r := range results` of `main` (lines 142-150) on the
records received so far: the slice `downloaded`. -/
def collectDownloaded : List dlResult → List dlResult
  | [] => []
  | r :: rest => if r.err ≠ none then collectDownloaded rest else r :: collectDownloaded rest

/-- A call deferred by `main` in list mode. -/
inductive Deferred where
  /-- The call `defer f.Close()` (line 52). -/
  | closeListFile
  /-- The call `defer os.RemoveAll(tempDir)` (line 88). -/
  | removeAllTempDir
deriving DecidableEq, Repr

/-- The part of the file system `main` acts on in list mode. -/
structure FS where
  listFileOpen : Bool
  tempDirExists : Bool
deriving DecidableEq, Repr

/-- How `main` ends: by returning, or by `os.Exit(code)` inside `log.Fatalf`. -/
inductive Leave where
  | returned
  | osExit (code : Nat)
deriving DecidableEq, Repr

/-- A deferred call, run. -/
def Deferred.run : Deferred → FS → FS
  | .closeListFile, fs => { fs with listFileOpen := false }
  | .removeAllTempDir, fs => { fs with tempDirExists := false }

/-- The end of `main`: a return runs the deferred calls, last deferred
first; `os.Exit` ends the process at once and runs none. -/
def leaveMain (how : Leave) (deferred : List Deferred) (fs : FS) : Leave × FS :=
  match how with
  | .returned => (.returned, deferred.foldl (fun fs d => d.run fs) fs)
  | .osExit code => (.osExit code, fs)

/-- The list mode of `main` from the creation of the temporary directory on
(lines 82-188), with the list file open and `links` not empty: `ffmpeg` is
what `extractFFmpegOnce` asks of the system, `results` are the records the
download workers deliver on `results`. -/
def mainListMode (ffmpeg : FFmpegEnv) (results : List dlResult) : Leave × FS :=
  -- line 52: defer f.Close()
  let deferred := [Deferred.closeListFile]
  -- line 83: tempDir, err := os.MkdirTemp(...), without error
  let fs : FS := { listFileOpen := true, tempDirExists := true }
  -- line 88: defer os.RemoveAll(tempDir)
  let deferred := Deferred.removeAllTempDir :: deferred
  -- lines 91-94: ff, err := extractFFmpegOnce(); log.Fatalf on an error
  match (extractFFmpegOnce ffmpeg FFmpegOnce.init).2.2 with
  | some _ => leaveMain (.osExit 1) deferred fs
  | none =>
    -- lines 142-150: the records without error
    let downloaded := collectDownloaded results
    -- lines 152-155: return when there is none
    if downloaded.length = 0 then leaveMain .returned deferred fs
    -- lines 157-187: the convert stage, which writes to `outDir`, then return
    else leaveMain .returned deferred fs

/-! ## `main.go`: the worker pools of the list mode -/

/-- A worker goroutine of a pool (lines 118-125 and 162-177) with jobs `α`
and records `β`. -/
inductive Worker (α β : Type) where
  /-- At `for job := range jobs`, waiting to receive. -/
  | idle
  /-- Inside `downloadVideoToDir` or `convertToMP3` for `job`. -/
  | busy (job : α)
  /-- The call returned; the record waits to be handed on
  (`results <- r`, or the `log.Printf` of the convert worker). -/
  | sending (r : β)
  /-- The loop ended on the closed channel and `wg.Done()` ran. -/
  | done
deriving DecidableEq, Repr

/-- A stage of the list mode: the feeder, the workers and the collector. -/
structure Pool (α β : Type) where
  /-- What the feeder has still to send on the unbuffered channel `jobs`. -/
  jobs : List α
  /-- Whether `close(jobs)` ran. -/
  jobsClosed : Bool
  workers : List (Worker α β)
  /-- The records handed on so far, in order. -/
  out : List β
  /-- Whether `wg.Wait()` returned (after which `results` is closed). -/
  closed : Bool
deriving DecidableEq, Repr

/-- What the scheduler and the workers' calls decide: which goroutine moves
next, and with which outcome `ω` a call returns. -/
inductive Action (ω : Type) where
  /-- The feeder's `jobs <- l` meets the receive of worker `i`. -/
  | send (i : Nat)
  /-- The feeder runs `close(jobs)`. -/
  | closeJobs
  /-- The call of worker `i` returns with outcome `o`. -/
  | finish (i : Nat) (o : ω)
  /-- Worker `i` hands its record on. -/
  | deliver (i : Nat)
  /-- Worker `i` finds `jobs` closed and leaves its loop. -/
  | exit (i : Nat)
  /-- The call `wg.Wait()` returns. -/
  | wait
deriving DecidableEq, Repr

/-- Whether a worker has left its loop. -/
def Worker.isDone {α β : Type} : Worker α β → Bool
  | .done => true
  | _ => false

/-- One move of a stage; `none` when the move is not possible in `p`.
`mk job o` is the record a worker builds from its job and the outcome. -/
def Pool.step {α β ω : Type} (mk : α → ω → β) (p : Pool α β) : Action ω → Option (Pool α β)
  | .send i =>
    match p.jobs, p.workers[i]? with
    | a :: rest, some .idle => some { p with jobs := rest, workers := p.workers.set i (.busy a) }
    | _, _ => none
  | .closeJobs =>
    if p.jobs.isEmpty && !p.jobsClosed then some { p with jobsClosed := true } else none
  | .finish i o =>
    match p.workers[i]? with
    | some (.busy a) => some { p with workers := p.workers.set i (.sending (mk a o)) }
    | _ => none
  | .deliver i =>
    match p.workers[i]? with
    | some (.sending r) => some { p with workers := p.workers.set i .idle, out := p.out ++ [r] }
    | _ => none
  | .exit i =>
    match p.workers[i]? with
    | some .idle => if p.jobsClosed then some { p with workers := p.workers.set i .done } else none
    | _ => none
  | .wait =>
    if p.workers.all Worker.isDone && !p.closed then some { p with closed := true } else none

/-- A schedule, run from `p`; `none` when one of its moves is not possible. -/
def Pool.run {α β ω : Type} (mk : α → ω → β) : Pool α β → List (Action ω) → Option (Pool α β)
  | p, [] => some p
  | p, a :: rest =>
    match p.step mk a with
    | some q => Pool.run mk q rest
    | none => none

/-- A stage at its start: `input` to send, `n` workers started. -/
def Pool.init {α β : Type} (input : List α) (n : Nat) : Pool α β :=
  ⟨input, false, List.replicate n .idle, [], false⟩

/-- The worker count of `main` (lines 110-113): `*concurrency`, or 1 when
that is below 1. -/
def clampWorkers (concurrency : Int) : Nat := if concurrency < 1 then 1 else concurrency.toNat

/-- What `downloadVideoToDir` returns. -/
structure FetchOutcome where
  path : GoString
  title : GoString
  artist : GoString
  err : Option GoString
deriving DecidableEq, Repr, Inhabited

/-- The record a download worker sends (line 123). -/
def fetchRecord (link : GoString) (o : FetchOutcome) : dlResult :=
  ⟨link, o.path, o.title, o.artist, o.err⟩

/-- The fetch stage of `main` (lines 106-150) at its start. -/
def fetchInit (links : List GoString) (concurrency : Int) : Pool GoString dlResult :=
  Pool.init links (clampWorkers concurrency)

/-- The convert stage of `main` (lines 157-184) at its start; a record of it
is a job and the error of `convertToMP3`. -/
def convertInit (downloaded : List dlResult) (concurrency : Int) :
    Pool dlResult (dlResult × Option GoString) :=
  Pool.init downloaded (clampWorkers concurrency)

/-! ## The reference definition of the sanitizer, from the spec's words -/

/-- The characters the spec calls unsafe: `/ \ : * ? " < > |`. -/
def unsafeChars : List Nat := [0x2F, 0x5C, 0x3A, 0x2A, 0x3F, 0x22, 0x3C, 0x3E, 0x7C]

/-- Spec (a): leading and trailing white space trimmed, on the characters of
a string. -/
def trimChars (cs : List Tok) : List Tok := (cs.dropWhile Tok.space).rdropWhile Tok.space

/-- Spec (b): every unsafe character replaced with `-`. -/
def replaceChars (cs : List Tok) : List Tok :=
  cs.map (fun c => if c.rune ∈ unsafeChars then ⟨0x2D, [0x2D]⟩ else c)

/-- Spec (c): every run of white space collapsed to a single space; `inRun`
says that the character before was white space. -/
def collapseChars : Bool → List Tok → List Tok
  | _, [] => []
  | inRun, c :: cs =>
    if c.space then
      if inRun then collapseChars true cs else ⟨0x20, [0x20]⟩ :: collapseChars true cs
    else c :: collapseChars false cs

/-- The reference definition as the spec states it: trim, replace,
collapse, then keep the first 200 characters. -/
def specSanitize (s : GoString) : GoString :=
  bytesOf ((collapseChars false (replaceChars (trimChars (range s)))).take 200)

/-- The reference definition with the truncation of the code: trim, replace,
collapse, then keep the first 200 bytes. -/
def specSanitizeBytes (s : GoString) : GoString :=
  (bytesOf (collapseChars false (replaceChars (trimChars (range s))))).take 200

/-! ## Auxiliary definitions for the proofs -/

/-- One call `strings.ReplaceAll(s, c, "-")` of `sanitizeFileName`, on a byte. -/
def replStep (c b : Nat) : Nat := if b = c then 0x2D else b

/-- The byte that `sanitizeFileName` writes in place of `b`. -/
def replUnsafe (goos : GOOS) (b : Nat) : Nat :=
  if b = PathSeparator goos ∨ [b] ∈ bad then 0x2D else b

/-- The body of `DecodeRuneInString` on the length and the first four bytes. -/
def decodeCore (n s0 s1 s2 s3 : Nat) : Nat × Nat :=
  match first s0 with
  | .as => (s0, 1)
  | .xx => (RuneError, 1)
  | .lead sz lo hi =>
    if n < sz then (RuneError, 1) else
    if s1 < lo ∨ hi < s1 then (RuneError, 1) else
    if sz ≤ 2 then ((s0 % 32) * 64 + s1 % 64, 2) else
    if s2 < 0x80 ∨ 0xBF < s2 then (RuneError, 1) else
    if sz ≤ 3 then ((s0 % 16) * 4096 + (s1 % 64) * 64 + s2 % 64, 3) else
    if s3 < 0x80 ∨ 0xBF < s3 then (RuneError, 1) else
    ((s0 % 8) * 262144 + (s1 % 64) * 4096 + (s2 % 64) * 64 + s3 % 64, 4)

/-- A byte map that keeps every non-ASCII byte and maps ASCII bytes to ASCII bytes. -/
def AsciiMap (f : Nat → Nat) : Prop := (∀ b, b < 0x80 → f b < 0x80) ∧ (∀ b, 0x80 ≤ b → f b = b)

/-- The rune and the bytes of `t` after the byte map `f`: an ASCII rune is
mapped by `f`, every other rune stays. -/
def Tok.mapBytes (f : Nat → Nat) (t : Tok) : Tok :=
  ⟨if t.rune < 0x80 then f t.rune else t.rune, t.bytes.map f⟩

/-- A rune as `range` yields it: an ASCII rune on its own byte, or a rune of
at least `0x80` on bytes of at least `0x80`. -/
def TokOK (t : Tok) : Prop :=
  (t.rune < 0x80 ∧ t.bytes = [t.rune]) ∨ (0x80 ≤ t.rune ∧ ∀ b ∈ t.bytes, 0x80 ≤ b)

/-- The last rune of a list, if any, is not white space. -/
def EndsNonSpace (ts : List Tok) : Prop := ∀ t, ts.getLast? = some t → t.space = false

/-- The first rune of a list, if any, is not white space. -/
def StartsNonSpace (ts : List Tok) : Prop := ∀ t, ts.head? = some t → t.space = false

/-- A title of 69 characters in 201 bytes: 66 times `あ` (U+3042, three
bytes each), then `a b`. -/
def longTitle : GoString := (List.replicate 66 [0xE3, 0x81, 0x82]).flatten ++ lit "a b"

/-- A title of 67 characters in 201 bytes: 67 times `あ` (U+3042). -/
def kanaTitle : GoString := (List.replicate 67 [0xE3, 0x81, 0x82]).flatten

/-- The four sidecar candidates of `extractFFmpegOnce`, in the order tried. -/
def ffmpegCandidates (env : FFmpegEnv) (exeDir : GoString) : List GoString :=
  [env.JoinPath exeDir (lit "vendor/ffmpeg"), env.JoinPath exeDir (lit "vendor/ffmpeg.exe"),
    env.JoinPath exeDir (lit "ffmpeg"), env.JoinPath exeDir (lit "ffmpeg.exe")]

/-- An environment with the executable `/opt/app/mp3download` and the
single file `/opt/app/ffmpeg`. -/
def sidecarEnv : FFmpegEnv where
  Executable := some (lit "/opt/app/mp3download")
  Dir := fun _ => lit "/opt/app"
  JoinPath := fun d n => d ++ lit "/" ++ n
  Stat := fun p => if p = lit "/opt/app/ffmpeg" then some false else none
  LookPath := fun _ => some (lit "/usr/bin/ffmpeg")

/-- An environment without any `ffmpeg`: no sidecar file and none on PATH. -/
def noFFmpegEnv : FFmpegEnv where
  Executable := some (lit "/opt/app/mp3download")
  Dir := fun _ => lit "/opt/app"
  JoinPath := fun d n => d ++ lit "/" ++ n
  Stat := fun _ => none
  LookPath := fun _ => none

/-- The number a string of decimal digits stands for. -/
def digitsValue (l : GoString) : Nat := l.foldl (fun a d => a * 10 + (d - 0x30)) 0

/-- The path tried in iteration `k + 1` of the loop of `downloadVideoToDir`:
the plain name first, then the names with the suffixes 1, 2, ... -/
def candidatePath (goos : GOOS) (destDir base ext : GoString) (k : Nat) : GoString :=
  if k = 0 then filepathJoin goos destDir (plainName base ext)
  else filepathJoin goos destDir (suffixedName base k ext)

/-- The job a worker holds, if any. -/
def Worker.held {α β : Type} (jobOf : β → α) : Worker α β → Multiset α
  | .busy a => {a}
  | .sending r => {jobOf r}
  | _ => 0

/-- The weight of a worker in the measure of a stage. -/
def Worker.weight {α β : Type} : Worker α β → Nat
  | .done => 0
  | .idle => 1
  | .sending _ => 2
  | .busy _ => 3

/-- The number of moves a stage has left. -/
def Pool.measure {α β : Type} (p : Pool α β) : Nat :=
  3 * p.jobs.length + (p.workers.map Worker.weight).sum +
    (if p.jobsClosed then 0 else 1) + (if p.closed then 0 else 1)

/-- What holds in every state a stage reaches from `Pool.init input n`. -/
structure Pool.Inv {α β : Type} (jobOf : β → α) (input : List α) (n : Nat) (p : Pool α β) :
    Prop where
  count : (p.jobs : Multiset α) + (p.workers.map (Worker.held jobOf)).sum +
    ((p.out.map jobOf : List α) : Multiset α) = (input : Multiset α)
  jobs_nil : p.jobsClosed = true → p.jobs = []
  done_closed : Worker.done ∈ p.workers → p.jobsClosed = true
  closed_done : p.closed = true → ∀ w ∈ p.workers, w = Worker.done
  len : p.workers.length = n

/-- A schedule of the fetch stage for two links and one worker: the first
fetch fails, the second succeeds. -/
def demoSchedule : List (Action FetchOutcome) :=
  [.send 0, .finish 0 ⟨[], [], [], some (lit "no audio formats found for video")⟩, .deliver 0,
    .send 0, .finish 0 ⟨lit "tmp/b.mp4", lit "b", lit "c", none⟩, .deliver 0,
    .closeJobs, .exit 0, .wait]

/-- The state `demoSchedule` ends in. -/
def demoFinal : Pool GoString dlResult :=
  ⟨[], true, [.done],
    [⟨lit "u1", [], [], [], some (lit "no audio formats found for video")⟩,
      ⟨lit "u2", lit "tmp/b.mp4", lit "b", lit "c", none⟩], true⟩

/-! ## Decoding lemmas -/

theorem first_lead {b sz lo hi : Nat} (h : first b = .lead sz lo hi) :
    (sz = 2 ∨ sz = 3 ∨ sz = 4) ∧ 0x80 ≤ lo ∧ hi ≤ 0xBF ∧ 0xC2 ≤ b ∧ b ≤ 0xF4 ∧
      (sz = 2 → b < 0xE0) ∧ (sz = 3 → b = 0xE0 → 0xA0 ≤ lo) ∧ (sz = 3 → 0xE0 ≤ b) ∧
      (sz = 3 → b < 0xF0) ∧ (sz = 4 → b = 0xF0 → 0x90 ≤ lo) ∧ (sz = 4 → 0xF0 ≤ b) := by
  unfold first at h
  by_cases c0 : b < 0x80
  · rw [if_pos c0] at h
    exact First.noConfusion h
  by_cases c1 : b < 0xC2
  · rw [if_neg c0, if_pos c1] at h
    exact First.noConfusion h
  by_cases c2 : b < 0xE0
  · rw [if_neg c0, if_neg c1, if_pos c2] at h
    have h' := First.lead.inj h
    omega
  by_cases c3 : b = 0xE0
  · rw [if_neg c0, if_neg c1, if_neg c2, if_pos c3] at h
    have h' := First.lead.inj h
    omega
  by_cases c4 : b < 0xED
  · rw [if_neg c0, if_neg c1, if_neg c2, if_neg c3, if_pos c4] at h
    have h' := First.lead.inj h
    omega
  by_cases c5 : b = 0xED
  · rw [if_neg c0, if_neg c1, if_neg c2, if_neg c3, if_neg c4, if_pos c5] at h
    have h' := First.lead.inj h
    omega
  by_cases c6 : b < 0xF0
  · rw [if_neg c0, if_neg c1, if_neg c2, if_neg c3, if_neg c4, if_neg c5, if_pos c6] at h
    have h' := First.lead.inj h
    omega
  by_cases c7 : b = 0xF0
  · rw [if_neg c0, if_neg c1, if_neg c2, if_neg c3, if_neg c4, if_neg c5, if_neg c6, if_pos c7] at h
    have h' := First.lead.inj h
    omega
  by_cases c8 : b < 0xF4
  · rw [if_neg c0, if_neg c1, if_neg c2, if_neg c3, if_neg c4, if_neg c5, if_neg c6, if_neg c7, if_pos c8] at h
    have h' := First.lead.inj h
    omega
  by_cases c9 : b = 0xF4
  · rw [if_neg c0, if_neg c1, if_neg c2, if_neg c3, if_neg c4, if_neg c5, if_neg c6, if_neg c7, if_neg c8, if_pos c9] at h
    have h' := First.lead.inj h
    omega
  · rw [if_neg c0, if_neg c1, if_neg c2, if_neg c3, if_neg c4, if_neg c5, if_neg c6, if_neg c7, if_neg c8, if_neg c9] at h
    exact First.noConfusion h

theorem first_as {b : Nat} (h : first b = .as) : b < 0x80 := by
  unfold first at h
  by_cases c0 : b < 0x80
  · rw [if_pos c0] at h
    exact c0
  by_cases c1 : b < 0xC2
  · rw [if_neg c0, if_pos c1] at h
    exact First.noConfusion h
  by_cases c2 : b < 0xE0
  · rw [if_neg c0, if_neg c1, if_pos c2] at h
    exact First.noConfusion h
  by_cases c3 : b = 0xE0
  · rw [if_neg c0, if_neg c1, if_neg c2, if_pos c3] at h
    exact First.noConfusion h
  by_cases c4 : b < 0xED
  · rw [if_neg c0, if_neg c1, if_neg c2, if_neg c3, if_pos c4] at h
    exact First.noConfusion h
  by_cases c5 : b = 0xED
  · rw [if_neg c0, if_neg c1, if_neg c2, if_neg c3, if_neg c4, if_pos c5] at h
    exact First.noConfusion h
  by_cases c6 : b < 0xF0
  · rw [if_neg c0, if_neg c1, if_neg c2, if_neg c3, if_neg c4, if_neg c5, if_pos c6] at h
    exact First.noConfusion h
  by_cases c7 : b = 0xF0
  · rw [if_neg c0, if_neg c1, if_neg c2, if_neg c3, if_neg c4, if_neg c5, if_neg c6, if_pos c7] at h
    exact First.noConfusion h
  by_cases c8 : b < 0xF4
  · rw [if_neg c0, if_neg c1, if_neg c2, if_neg c3, if_neg c4, if_neg c5, if_neg c6, if_neg c7, if_pos c8] at h
    exact First.noConfusion h
  by_cases c9 : b = 0xF4
  · rw [if_neg c0, if_neg c1, if_neg c2, if_neg c3, if_neg c4, if_neg c5, if_neg c6, if_neg c7, if_neg c8, if_pos c9] at h
    exact First.noConfusion h
  · rw [if_neg c0, if_neg c1, if_neg c2, if_neg c3, if_neg c4, if_neg c5, if_neg c6, if_neg c7, if_neg c8, if_neg c9] at h
    exact First.noConfusion h

theorem first_of_lt {b : Nat} (h : b < 0x80) : first b = .as := by
  simp [first, h]

theorem first_of_ge {b : Nat} (h : 0x80 ≤ b) : first b ≠ .as := by
  intro h'
  have := first_as h'
  omega

theorem decode_width_le (s : GoString) : (DecodeRuneInString s).2 ≤ s.length := by
  unfold DecodeRuneInString
  simp only []
  split
  · simp
  · split
    · simp; omega
    · simp; omega
    · rename_i sz lo hi heq
      have := first_lead heq
      split_ifs <;> simp <;> omega

theorem decode_width_pos (b : Nat) (t : GoString) : 1 ≤ (DecodeRuneInString (b :: t)).2 := by
  unfold DecodeRuneInString
  simp only []
  split
  · simp at *
  · split
    · simp
    · simp
    · split_ifs <;> simp

theorem rangeAux_skip (k : Nat) (s : GoString) : rangeAux k s = rangeAux 0 (s.drop k) := by
  induction s generalizing k with
  | nil => simp [rangeAux]
  | cons b t ih =>
    cases k with
    | zero => simp
    | succ k => simp [rangeAux, ih k]

theorem range_nil : range [] = [] := rfl

theorem range_cons (b : Nat) (t : GoString) :
    range (b :: t) =
      ⟨(DecodeRuneInString (b :: t)).1, (b :: t).take (DecodeRuneInString (b :: t)).2⟩ ::
        range ((b :: t).drop (DecodeRuneInString (b :: t)).2) := by
  have h := decode_width_pos b t
  obtain ⟨w, hw⟩ : ∃ w, (DecodeRuneInString (b :: t)).2 = w + 1 := ⟨_, (Nat.sub_add_cancel h).symm⟩
  simp only [range, rangeAux, hw, List.drop_succ_cons, Nat.add_sub_cancel]
  rw [rangeAux_skip]

theorem bytesOf_range_aux (n : Nat) : ∀ s : GoString, s.length ≤ n → bytesOf (range s) = s := by
  induction n with
  | zero =>
    intro s hs
    have : s = [] := List.length_eq_zero.mp (Nat.le_zero.mp hs)
    subst this
    rfl
  | succ n ih =>
    intro s hs
    cases s with
    | nil => rfl
    | cons b t =>
      rw [range_cons]
      have hp := decode_width_pos b t
      simp only [bytesOf, List.map_cons, List.flatten_cons]
      have := ih ((b :: t).drop (DecodeRuneInString (b :: t)).2)
        (by simp only [List.length_drop, List.length_cons] at hs ⊢; omega)
      simp only [bytesOf] at this
      rw [this, List.take_append_drop]

theorem bytesOf_range (s : GoString) : bytesOf (range s) = s :=
  bytesOf_range_aux s.length s le_rfl

theorem decode_eq_core (s : GoString) (h : s ≠ []) :
    DecodeRuneInString s =
      decodeCore s.length (s.getD 0 0) (s.getD 1 0) (s.getD 2 0) (s.getD 3 0) := by
  have hlen : ¬ s.length < 1 := by
    cases s with
    | nil => exact absurd rfl h
    | cons => simp
  unfold DecodeRuneInString decodeCore
  simp only [hlen, if_false]

theorem decodeCore_prefix {n m s0 s1 s2 s3 t1 t2 t3 : Nat} (hm : n ≤ m)
    (h1 : 1 < n → t1 = s1) (h2 : 2 < n → t2 = s2) (h3 : 3 < n → t3 = s3)
    (hw : (decodeCore m s0 s1 s2 s3).2 ≤ n) :
    decodeCore n s0 t1 t2 t3 = decodeCore m s0 s1 s2 s3 := by
  unfold decodeCore at hw ⊢
  cases hf : first s0 with
  | as => rfl
  | xx => rfl
  | lead sz lo hi =>
    have hl := first_lead hf
    simp only [hf] at hw
    simp only []
    by_cases hsz : n < sz
    · rw [if_pos hsz]
      split_ifs at hw ⊢ <;> first | rfl | (simp at hw; omega)
    · rw [if_neg hsz, if_neg (show ¬ m < sz by omega)]
      have e1 := h1 (by omega)
      subst e1
      by_cases c2 : sz ≤ 2
      · simp [c2]
      · have e2 := h2 (by omega)
        subst e2
        by_cases c3 : sz ≤ 3
        · simp [c2, c3]
        · have e3 := h3 (by omega)
          subst e3
          rfl

theorem getD_append_of_lt (p q : GoString) (i : Nat) (h : i < p.length) :
    (p ++ q).getD i 0 = p.getD i 0 := by
  simp [List.getD, List.getElem?_append_left h]

theorem decode_prefix (p q : GoString) (hp : p ≠ [])
    (hw : (DecodeRuneInString (p ++ q)).2 ≤ p.length) :
    DecodeRuneInString p = DecodeRuneInString (p ++ q) := by
  have hlen : 1 ≤ p.length := by
    cases p with
    | nil => exact absurd rfl hp
    | cons => simp
  have hpq : p ++ q ≠ [] := by simp [hp]
  rw [decode_eq_core _ hpq] at hw ⊢
  rw [decode_eq_core _ hp, getD_append_of_lt p q 0 (by omega)] at *
  exact decodeCore_prefix (by simp) (fun h => (getD_append_of_lt p q 1 h).symm)
    (fun h => (getD_append_of_lt p q 2 h).symm) (fun h => (getD_append_of_lt p q 3 h).symm) hw

theorem decodeCore_map {f : Nat → Nat} (hf : AsciiMap f) (n s0 s1 s2 s3 : Nat) :
    decodeCore n (f s0) (f s1) (f s2) (f s3) =
      (if s0 < 0x80 then f s0 else (decodeCore n s0 s1 s2 s3).1, (decodeCore n s0 s1 s2 s3).2) := by
  by_cases h0 : s0 < 0x80
  · have := hf.1 s0 h0
    simp [decodeCore, first_of_lt h0, first_of_lt this, h0]
  · have e0 := hf.2 s0 (by omega)
    rw [e0, if_neg h0]
    unfold decodeCore
    cases hfi : first s0 with
    | as => rfl
    | xx => rfl
    | lead sz lo hi =>
      have hl := first_lead hfi
      simp only []
      by_cases hsz : n < sz
      · simp [hsz]
      · rw [if_neg hsz, if_neg hsz]
        by_cases a1 : s1 < 0x80
        · have := hf.1 s1 a1
          rw [if_pos (Or.inl (by omega)), if_pos (Or.inl (by omega))]
        · rw [hf.2 s1 (by omega)]
          by_cases c1 : s1 < lo ∨ hi < s1
          · simp [c1]
          · rw [if_neg c1, if_neg c1]
            by_cases c2 : sz ≤ 2
            · simp [c2]
            · rw [if_neg c2, if_neg c2]
              by_cases a2 : s2 < 0x80
              · have := hf.1 s2 a2
                rw [if_pos (Or.inl (by omega)), if_pos (Or.inl (by omega))]
              · rw [hf.2 s2 (by omega)]
                by_cases c2' : s2 < 0x80 ∨ 0xBF < s2
                · simp [c2']
                · rw [if_neg c2', if_neg c2']
                  by_cases c3 : sz ≤ 3
                  · simp [c3]
                  · rw [if_neg c3, if_neg c3]
                    by_cases a3 : s3 < 0x80
                    · have := hf.1 s3 a3
                      rw [if_pos (Or.inl (by omega)), if_pos (Or.inl (by omega))]
                    · rw [hf.2 s3 (by omega)]

/-! ## Runes of trimmed and mapped strings -/

theorem range_of_ne_nil (s : GoString) (h : s ≠ []) :
    range s = ⟨(DecodeRuneInString s).1, s.take (DecodeRuneInString s).2⟩ ::
        range (s.drop (DecodeRuneInString s).2) := by
  cases s with
  | nil => exact absurd rfl h
  | cons b t => exact range_cons b t

theorem bytesOf_cons (t : Tok) (ts : List Tok) : bytesOf (t :: ts) = t.bytes ++ bytesOf ts := rfl

theorem bytesOf_append (a b : List Tok) : bytesOf (a ++ b) = bytesOf a ++ bytesOf b := by
  simp [bytesOf]

theorem range_drop (k : Nat) : ∀ s : GoString, range (bytesOf ((range s).drop k)) = (range s).drop k := by
  induction k with
  | zero => intro s; simp [bytesOf_range]
  | succ k ih =>
    intro s
    cases s with
    | nil => simp [range_nil, bytesOf]
    | cons b t =>
      rw [range_cons, List.drop_succ_cons]
      exact ih _

theorem range_take (k : Nat) : ∀ s : GoString, range (bytesOf ((range s).take k)) = (range s).take k := by
  induction k with
  | zero => intro s; simp [bytesOf, range_nil]
  | succ k ih =>
    intro s
    cases s with
    | nil => simp [range_nil, bytesOf]
    | cons b t =>
      rw [range_cons, List.take_succ_cons, bytesOf_cons]
      simp only []
      set w := (DecodeRuneInString (b :: t)).2 with hw
      set s' := (b :: t).drop w with hs'
      have hwpos : 1 ≤ w := decode_width_pos b t
      have hwle : w ≤ (b :: t).length := decode_width_le (b :: t)
      have hplen : ((b :: t).take w).length = w := by
        rw [List.length_take]; omega
      have hpne : (b :: t).take w ++ bytesOf ((range s').take k) ≠ [] := by
        intro h
        have := congrArg List.length h
        simp only [List.length_append, hplen, List.length_nil] at this
        omega
      -- the whole string, split at the token boundary
      have hsplit : (b :: t) = ((b :: t).take w ++ bytesOf ((range s').take k)) ++
          bytesOf ((range s').drop k) := by
        rw [List.append_assoc, ← bytesOf_append, List.take_append_drop, bytesOf_range,
          List.take_append_drop]
      have hdec : DecodeRuneInString ((b :: t).take w ++ bytesOf ((range s').take k)) =
          DecodeRuneInString (b :: t) := by
        conv_rhs => rw [hsplit]
        apply decode_prefix _ _ hpne
        rw [← hsplit, List.length_append, hplen]
        omega
      rw [range_of_ne_nil _ hpne, hdec, ← hw]
      have e1 : ((b :: t).take w ++ bytesOf ((range s').take k)).take w = (b :: t).take w := by
        rw [List.take_append_of_le_length (by omega), List.take_take, Nat.min_self]
      have e2 : ((b :: t).take w ++ bytesOf ((range s').take k)).drop w =
          bytesOf ((range s').take k) := by
        rw [List.drop_append_of_le_length (by omega), List.drop_eq_nil_of_le (by omega),
          List.nil_append]
      rw [e1, e2, ih s']

/-- The runes of `TrimSpace s` are the runes of `s` without the leading and
trailing white space. -/
theorem range_TrimSpace (s : GoString) :
    range (TrimSpace s) = ((range s).dropWhile Tok.space).rdropWhile Tok.space := by
  unfold TrimSpace
  obtain ⟨k, hk⟩ : ∃ k, (range s).dropWhile Tok.space = (range s).drop k :=
    ⟨_, List.suffix_iff_eq_drop.mp (List.dropWhile_suffix _)⟩
  rw [hk, ← range_drop k s]
  obtain ⟨j, hj⟩ : ∃ j, (range (bytesOf ((range s).drop k))).rdropWhile Tok.space =
      (range (bytesOf ((range s).drop k))).take j :=
    ⟨_, List.prefix_iff_eq_take.mp (List.rdropWhile_prefix _ _)⟩
  rw [hj, range_take]

theorem decodeCore_ascii {n s0 : Nat} (s1 s2 s3 : Nat) (h : s0 < 0x80) :
    decodeCore n s0 s1 s2 s3 = (s0, 1) := by
  simp [decodeCore, first_of_lt h]

theorem decodeCore_rune_ge {n s0 : Nat} (s1 s2 s3 : Nat) (h : 0x80 ≤ s0) :
    0x80 ≤ (decodeCore n s0 s1 s2 s3).1 := by
  unfold decodeCore
  cases hf : first s0 with
  | as => exact absurd hf (first_of_ge h)
  | xx => simp [RuneError]
  | lead sz lo hi =>
    have hl := first_lead hf
    simp only []
    split_ifs <;> simp only [RuneError] <;> omega

theorem getD_map (f : Nat → Nat) (s : GoString) (i : Nat) (h : i < s.length) :
    (s.map f).getD i 0 = f (s.getD i 0) := by
  simp [List.getD, List.getElem?_eq_getElem h]

theorem decode_map {f : Nat → Nat} (hf : AsciiMap f) (s : GoString) (hs : s ≠ []) :
    DecodeRuneInString (s.map f) =
      (if (DecodeRuneInString s).1 < 0x80 then f (DecodeRuneInString s).1
        else (DecodeRuneInString s).1, (DecodeRuneInString s).2) := by
  have hlen : 1 ≤ s.length := by
    cases s with
    | nil => exact absurd rfl hs
    | cons => simp
  have hw := decode_width_le s
  have hs' : s.map f ≠ [] := by simpa using hs
  rw [decode_eq_core _ hs', decode_eq_core _ hs] at *
  rw [List.length_map, getD_map f s 0 (by omega)]
  have key := decodeCore_map hf s.length (s.getD 0 0) (s.getD 1 0) (s.getD 2 0) (s.getD 3 0)
  have step : decodeCore s.length (f (s.getD 0 0)) ((s.map f).getD 1 0) ((s.map f).getD 2 0)
      ((s.map f).getD 3 0) =
      decodeCore s.length (f (s.getD 0 0)) (f (s.getD 1 0)) (f (s.getD 2 0)) (f (s.getD 3 0)) := by
    apply decodeCore_prefix le_rfl (getD_map f s 1) (getD_map f s 2) (getD_map f s 3)
    rw [key]
    exact hw
  rw [step, key]
  by_cases h0 : s.getD 0 0 < 0x80
  · rw [decodeCore_ascii _ _ _ h0]
  · have := decodeCore_rune_ge (n := s.length) (s.getD 1 0) (s.getD 2 0) (s.getD 3 0)
      (show 0x80 ≤ s.getD 0 0 by omega)
    rw [if_neg h0, if_neg (by omega)]

theorem range_map_aux {f : Nat → Nat} (hf : AsciiMap f) (n : Nat) :
    ∀ s : GoString, s.length ≤ n → range (s.map f) = (range s).map (Tok.mapBytes f) := by
  induction n with
  | zero =>
    intro s hs
    have : s = [] := List.length_eq_zero.mp (Nat.le_zero.mp hs)
    subst this
    rfl
  | succ n ih =>
    intro s hs
    cases s with
    | nil => rfl
    | cons b t =>
      have hne : (b :: t) ≠ [] := by simp
      have hne' : (b :: t).map f ≠ [] := by simp
      rw [range_of_ne_nil _ hne', range_of_ne_nil _ hne, decode_map hf _ hne]
      have hp := decode_width_pos b t
      simp only [List.map_cons (f := Tok.mapBytes f)]
      rw [← List.map_drop, ih _ (by simp only [List.length_drop, List.length_cons] at hs ⊢; omega)]
      simp [Tok.mapBytes, List.map_take]

theorem range_map {f : Nat → Nat} (hf : AsciiMap f) (s : GoString) :
    range (s.map f) = (range s).map (Tok.mapBytes f) :=
  range_map_aux hf s.length s le_rfl

theorem decodeCore_bytes_ge (n s0 s1 s2 s3 : Nat) :
    (decodeCore n s0 s1 s2 s3).2 ≤ 4 ∧
      (1 < (decodeCore n s0 s1 s2 s3).2 → 0x80 ≤ s1) ∧
      (2 < (decodeCore n s0 s1 s2 s3).2 → 0x80 ≤ s2) ∧
      (3 < (decodeCore n s0 s1 s2 s3).2 → 0x80 ≤ s3) := by
  unfold decodeCore
  cases hf : first s0 with
  | as => simp
  | xx => simp
  | lead sz lo hi =>
    have hl := first_lead hf
    simp only []
    split_ifs <;> simp only [] <;> omega

theorem tokOK_head (s : GoString) (hs : s ≠ []) :
    TokOK ⟨(DecodeRuneInString s).1, s.take (DecodeRuneInString s).2⟩ := by
  cases s with
  | nil => exact absurd rfl hs
  | cons b t =>
    rw [decode_eq_core _ hs]
    by_cases h0 : b < 0x80
    · left
      simp only [List.getD_cons_zero, decodeCore_ascii _ _ _ h0]
      exact ⟨h0, by simp⟩
    · right
      constructor
      · exact decodeCore_rune_ge _ _ _ (by simpa using h0)
      · intro x hx
        have hb := decodeCore_bytes_ge (b :: t).length ((b :: t).getD 0 0)
          ((b :: t).getD 1 0) ((b :: t).getD 2 0) ((b :: t).getD 3 0)
        obtain ⟨i, hi, rfl⟩ := List.getElem_of_mem hx
        rw [List.length_take] at hi
        rw [List.getElem_take]
        have hget : ∀ j (hj : j < (b :: t).length), (b :: t)[j] = (b :: t).getD j 0 := by
          intro j hj
          simp [List.getD, List.getElem?_eq_getElem hj]
        rw [hget]
        have hi4 : i < 4 := by omega
        interval_cases i
        · simpa using h0
        · exact hb.2.1 (by omega)
        · exact hb.2.2.1 (by omega)
        · exact hb.2.2.2 (by omega)

theorem tokOK_of_mem_range_aux (n : Nat) :
    ∀ s : GoString, s.length ≤ n → ∀ t ∈ range s, TokOK t := by
  induction n with
  | zero =>
    intro s hs t ht
    have : s = [] := List.length_eq_zero.mp (Nat.le_zero.mp hs)
    subst this
    simp [range_nil] at ht
  | succ n ih =>
    intro s hs t ht
    cases s with
    | nil => simp [range_nil] at ht
    | cons b r =>
      rw [range_cons] at ht
      rcases List.mem_cons.mp ht with h | h
      · subst h
        exact tokOK_head (b :: r) (by simp)
      · have hp := decode_width_pos b r
        exact ih _ (by simp only [List.length_drop, List.length_cons] at hs ⊢; omega) t h

theorem tokOK_of_mem_range {s : GoString} {t : Tok} (ht : t ∈ range s) : TokOK t :=
  tokOK_of_mem_range_aux s.length s le_rfl t ht

/-! ## `sanitizeFileName`: the unsafe characters -/

theorem replaceAux_single (c d : Nat) (s : GoString) :
    replaceAux [c] [d] 0 s = s.map (fun b => if b = c then d else b) := by
  induction s with
  | nil => rfl
  | cons b t ih =>
    by_cases h : b = c
    · subst h
      simp [replaceAux, List.isPrefixOf, ih]
    · have h' : ¬ c = b := fun e => h e.symm
      simp [replaceAux, List.isPrefixOf, ih, h, h']

theorem ReplaceAll_single (s : GoString) (c : Nat) :
    ReplaceAll s [c] [0x2D] = s.map (replStep c) := by
  simp only [ReplaceAll, replaceAux_single, List.cons_ne_nil, if_false]
  rfl

theorem mem_of_mem_range {s : GoString} {t : Tok} {b : Nat} (ht : t ∈ range s) (hb : b ∈ t.bytes) :
    b ∈ s := by
  rw [← bytesOf_range s]
  simp only [bytesOf, List.mem_flatten, List.mem_map]
  exact ⟨t.bytes, ⟨t, ht, rfl⟩, hb⟩

theorem mem_fieldsLoop {ts : List Tok} {cur : Option GoString} {w : GoString} {b : Nat}
    (hw : w ∈ fieldsLoop ts cur) (hb : b ∈ w) :
    b ∈ cur.getD [] ∨ ∃ t ∈ ts, b ∈ t.bytes := by
  induction ts generalizing cur with
  | nil =>
    cases cur with
    | none => simp [fieldsLoop] at hw
    | some c =>
      simp only [fieldsLoop, List.mem_singleton] at hw
      subst hw
      exact Or.inl hb
  | cons t ts ih =>
    cases cur with
    | none =>
      simp only [fieldsLoop] at hw
      split at hw
      · rcases ih hw with h | ⟨t', ht', h⟩
        · simp at h
        · exact Or.inr ⟨t', List.mem_cons_of_mem _ ht', h⟩
      · rcases ih hw with h | ⟨t', ht', h⟩
        · exact Or.inr ⟨t, List.mem_cons_self _ _, h⟩
        · exact Or.inr ⟨t', List.mem_cons_of_mem _ ht', h⟩
    | some c =>
      simp only [fieldsLoop] at hw
      split at hw
      · rcases List.mem_cons.mp hw with h | h
        · subst h
          exact Or.inl hb
        · rcases ih h with h | ⟨t', ht', h⟩
          · simp at h
          · exact Or.inr ⟨t', List.mem_cons_of_mem _ ht', h⟩
      · rcases ih hw with h | ⟨t', ht', h⟩
        · simp only [Option.getD_some, List.mem_append] at h
          rcases h with h | h
          · exact Or.inl h
          · exact Or.inr ⟨t, List.mem_cons_self _ _, h⟩
        · exact Or.inr ⟨t', List.mem_cons_of_mem _ ht', h⟩

theorem mem_Fields {s w : GoString} {b : Nat} (hw : w ∈ Fields s) (hb : b ∈ w) : b ∈ s := by
  rcases mem_fieldsLoop hw hb with h | ⟨t, ht, h⟩
  · simp at h
  · exact mem_of_mem_range ht h

theorem mem_Join {ws : List GoString} {sep : GoString} {b : Nat} (hb : b ∈ Join ws sep) :
    b ∈ sep ∨ ∃ w ∈ ws, b ∈ w := by
  induction ws with
  | nil => simp [Join] at hb
  | cons a rest ih =>
    cases rest with
    | nil =>
      simp only [Join] at hb
      exact Or.inr ⟨a, List.mem_cons_self _ _, hb⟩
    | cons c rest =>
      simp only [Join, List.mem_append] at hb
      rcases hb with (h | h) | h
      · exact Or.inr ⟨a, List.mem_cons_self _ _, h⟩
      · exact Or.inl h
      · rcases ih h with h | ⟨w, hw, h⟩
        · exact Or.inl h
        · exact Or.inr ⟨w, List.mem_cons_of_mem _ hw, h⟩

theorem mem_bad_iff (b : Nat) :
    [b] ∈ bad ↔ b = 47 ∨ b = 92 ∨ b = 58 ∨ b = 42 ∨ b = 63 ∨ b = 34 ∨ b = 60 ∨ b = 62 ∨ b = 124 := by
  have hb : bad = [[47], [92], [58], [42], [63], [34], [60], [62], [124]] := by decide
  simp [hb]

theorem replace_chain (goos : GOOS) (s : GoString) :
    bad.foldl (fun s b => ReplaceAll s b (lit "-")) (ReplaceAll s [PathSeparator goos] (lit "-"))
      = s.map (replUnsafe goos) := by
  have hl : lit "-" = [0x2D] := by decide
  have hb : bad = [[47], [92], [58], [42], [63], [34], [60], [62], [124]] := by decide
  rw [hl, hb]
  simp only [List.foldl_cons, List.foldl_nil, ReplaceAll_single, List.map_map]
  apply List.map_congr_left
  intro b _
  have hsep : PathSeparator goos = 47 ∨ PathSeparator goos = 92 := by
    cases goos <;> simp [PathSeparator]
  simp only [Function.comp, replUnsafe, mem_bad_iff]
  by_cases h : b = 47 ∨ b = 92 ∨ b = 58 ∨ b = 42 ∨ b = 63 ∨ b = 34 ∨ b = 60 ∨ b = 62 ∨ b = 124
  · rw [if_pos (Or.inr h)]
    rcases hsep with e | e <;> rw [e] <;>
      rcases h with rfl | rfl | rfl | rfl | rfl | rfl | rfl | rfl | rfl <;> simp [replStep]
  · have hs : ¬ b = PathSeparator goos := by
      rcases hsep with e | e <;> rw [e] <;> intro hh <;> exact h (by simp [hh])
    rw [if_neg (by simp [hs, h])]
    simp only [not_or] at h
    obtain ⟨h1, h2, h3, h4, h5, h6, h7, h8, h9⟩ := h
    simp [replStep, hs, h1, h2, h3, h4, h5, h6, h7, h8, h9]

theorem replUnsafe_not_bad (goos : GOOS) (b : Nat) :
    replUnsafe goos b ≠ PathSeparator goos ∧ [replUnsafe goos b] ∉ bad := by
  unfold replUnsafe
  split
  · constructor
    · cases goos <;> simp [PathSeparator]
    · simp [mem_bad_iff]
  · rename_i h
    simp only [not_or] at h
    exact h

theorem sanitizeFileName_eq (goos : GOOS) (s : GoString) :
    sanitizeFileName goos s =
      (Join (Fields ((TrimSpace s).map (replUnsafe goos))) (lit " ")).take 200 := by
  simp only [sanitizeFileName, replace_chain]
  split
  · rfl
  · rename_i h
    rw [List.take_of_length_le (by omega)]

theorem mem_sanitizeFileName {goos : GOOS} {s : GoString} {b : Nat}
    (hb : b ∈ sanitizeFileName goos s) : b ≠ PathSeparator goos ∧ [b] ∉ bad := by
  rw [sanitizeFileName_eq] at hb
  rcases mem_Join (List.mem_of_mem_take hb) with h | ⟨w, hw, h⟩
  · have : b = 32 := by
      have hl : lit " " = [32] := by decide
      simpa [hl] using h
    subst this
    constructor
    · cases goos <;> simp [PathSeparator]
    · simp [mem_bad_iff]
  · have := mem_Fields hw h
    obtain ⟨b', _, rfl⟩ := List.mem_map.mp this
    exact replUnsafe_not_bad goos b'

/-- C1: for every input string `s` and every `c` among the strings
`/ \ : * ? " < > |` of `bad` or the platform path separator,
`sanitizeFileName(s)` does not contain `c`. -/
theorem sanitizeFileName_no_unsafe (goos : GOOS) (s c : GoString)
    (hc : c ∈ bad ∨ c = [PathSeparator goos]) : ¬ c <:+: sanitizeFileName goos s := by
  intro hin
  have hc' : ∃ x, c = [x] ∧ (x = PathSeparator goos ∨ [x] ∈ bad) := by
    rcases hc with h | h
    · have hb : bad = [[47], [92], [58], [42], [63], [34], [60], [62], [124]] := by decide
      have h' := h
      rw [hb] at h'
      simp only [List.mem_cons, List.mem_singleton, List.not_mem_nil, or_false] at h'
      rcases h' with e | e | e | e | e | e | e | e | e <;> subst e <;> exact ⟨_, rfl, Or.inr h⟩
    · exact ⟨_, h, Or.inl rfl⟩
  obtain ⟨x, rfl, hx⟩ := hc'
  have hmem : x ∈ sanitizeFileName goos s := by
    obtain ⟨p, q, e⟩ := hin
    rw [← e]
    simp
  have := mem_sanitizeFileName hmem
  rcases hx with h | h
  · exact this.1 h
  · exact this.2 h

/-- The sanitized name of ` a/b:c ` does not contain `/`. -/
theorem sanitizeFileName_no_unsafe_witness :
    (lit "/" ∈ bad ∨ lit "/" = [PathSeparator .other]) ∧
      ¬ lit "/" <:+: sanitizeFileName .other (lit " a/b:c ") :=
  ⟨Or.inl (by decide),
   sanitizeFileName_no_unsafe .other (lit " a/b:c ") (lit "/") (Or.inl (by decide))⟩

theorem mem_unsafeChars_iff (goos : GOOS) (b : Nat) :
    b ∈ unsafeChars ↔ (b = PathSeparator goos ∨ [b] ∈ bad) := by
  rw [mem_bad_iff]
  have hsep : PathSeparator goos = 47 ∨ PathSeparator goos = 92 := by
    cases goos <;> simp [PathSeparator]
  simp only [unsafeChars, List.mem_cons, List.mem_singleton, List.not_mem_nil, or_false]
  rcases hsep with e | e <;> rw [e] <;> constructor <;> intro h <;> omega

theorem replUnsafe_eq (goos : GOOS) (b : Nat) :
    replUnsafe goos b = if b ∈ unsafeChars then 0x2D else b := by
  unfold replUnsafe
  simp only [mem_unsafeChars_iff goos]

theorem lt_of_mem_unsafeChars {b : Nat} (h : b ∈ unsafeChars) : b < 0x80 := by
  simp only [unsafeChars, List.mem_cons, List.mem_singleton, List.not_mem_nil, or_false] at h
  omega

theorem asciiMap_replUnsafe (goos : GOOS) : AsciiMap (replUnsafe goos) := by
  constructor
  · intro b hb
    rw [replUnsafe_eq]
    split <;> omega
  · intro b hb
    rw [replUnsafe_eq]
    split
    · rename_i h
      have := lt_of_mem_unsafeChars h
      omega
    · rfl

theorem mapBytes_replUnsafe (goos : GOOS) {t : Tok} (ht : TokOK t) :
    Tok.mapBytes (replUnsafe goos) t = if t.rune ∈ unsafeChars then ⟨0x2D, [0x2D]⟩ else t := by
  obtain ⟨r, bs⟩ := t
  rcases ht with ⟨hlt, hbs⟩ | ⟨hge, hbs⟩
  · simp only at hlt hbs
    subst hbs
    simp only [Tok.mapBytes, if_pos hlt, List.map_cons, List.map_nil, replUnsafe_eq]
    split <;> rfl
  · simp only at hge hbs
    have hnot : r ∉ unsafeChars := fun h => by
      have := lt_of_mem_unsafeChars h
      omega
    simp only [Tok.mapBytes, if_neg hnot, if_neg (show ¬ r < 0x80 by omega)]
    congr 1
    conv_rhs => rw [← List.map_id bs]
    apply List.map_congr_left
    intro b hb
    exact (asciiMap_replUnsafe goos).2 b (hbs b hb)

theorem range_replace_trim (goos : GOOS) (s : GoString) :
    range ((TrimSpace s).map (replUnsafe goos)) = replaceChars (trimChars (range s)) := by
  rw [range_map (asciiMap_replUnsafe goos), range_TrimSpace]
  unfold replaceChars trimChars
  apply List.map_congr_left
  intro t ht
  apply mapBytes_replUnsafe
  have h1 : t ∈ (range s).dropWhile Tok.space := (List.rdropWhile_prefix _ _).subset ht
  exact tokOK_of_mem_range ((List.dropWhile_suffix _).subset h1)

/-! ## `strings.Fields` and `strings.Join` against the collapsed runs -/

theorem Join_cons (w : GoString) (ws : List GoString) (sep : GoString) (h : ws ≠ []) :
    Join (w :: ws) sep = w ++ sep ++ Join ws sep := by
  cases ws with
  | nil => exact absurd rfl h
  | cons a rest => rfl

theorem fieldsLoop_some_ne_nil (ts : List Tok) (w : GoString) : fieldsLoop ts (some w) ≠ [] := by
  induction ts generalizing w with
  | nil => simp [fieldsLoop]
  | cons t ts ih =>
    simp only [fieldsLoop]
    split
    · simp
    · exact ih _

theorem fieldsLoop_none_ne_nil (ts : List Tok) (h : ∃ t ∈ ts, t.space = false) :
    fieldsLoop ts none ≠ [] := by
  induction ts with
  | nil => simp at h
  | cons t ts ih =>
    simp only [fieldsLoop]
    split
    · rename_i hsp
      obtain ⟨t', ht', hn⟩ := h
      rcases List.mem_cons.mp ht' with e | e
      · subst e
        rw [hsp] at hn
        exact absurd hn (by simp)
      · exact ih ⟨t', e, hn⟩
    · exact fieldsLoop_some_ne_nil _ _

theorem EndsNonSpace.tail {t : Tok} {ts : List Tok} (h : EndsNonSpace (t :: ts)) (hne : ts ≠ []) :
    EndsNonSpace ts := by
  intro x hx
  apply h
  cases ts with
  | nil => exact absurd rfl hne
  | cons a r => simpa [List.getLast?_cons_cons] using hx

theorem EndsNonSpace.exists {ts : List Tok} (h : EndsNonSpace ts) (hne : ts ≠ []) :
    ∃ t ∈ ts, t.space = false := by
  refine ⟨ts.getLast hne, List.getLast_mem hne, h _ ?_⟩
  exact List.getLast?_eq_getLast _ hne

theorem join_fieldsLoop (ts : List Tok) (h : EndsNonSpace ts) :
    (∀ w, Join (fieldsLoop ts (some w)) [0x20] = w ++ bytesOf (collapseChars false ts)) ∧
      Join (fieldsLoop ts none) [0x20] = bytesOf (collapseChars true ts) := by
  induction ts with
  | nil => 
    refine ⟨fun w => ?_, ?_⟩
    · simp [fieldsLoop, Join, collapseChars, bytesOf]
    · simp [fieldsLoop, Join, collapseChars, bytesOf]
  | cons t ts ih =>
    by_cases hsp : t.space = true
    · have hne : ts ≠ [] := by
        intro e
        subst e
        have := h t rfl
        rw [hsp] at this
        exact absurd this (by simp)
      have ih' := ih (h.tail hne)
      have hnn : fieldsLoop ts none ≠ [] := fieldsLoop_none_ne_nil ts ((h.tail hne).exists hne)
      refine ⟨fun w => ?_, ?_⟩
      · simp only [fieldsLoop, hsp, if_true, collapseChars, Bool.false_eq_true, if_false]
        rw [Join_cons _ _ _ hnn, ih'.2, bytesOf_cons]
        simp
      · simp only [fieldsLoop, hsp, if_true, collapseChars]
        exact ih'.2
    · have hsp' : t.space = false := by simpa using hsp
      have ih' : (∀ w, Join (fieldsLoop ts (some w)) [0x20] = w ++ bytesOf (collapseChars false ts)) := by
        by_cases hne : ts = []
        · subst hne
          intro w
          simp [fieldsLoop, Join, collapseChars, bytesOf]
        · exact (ih (h.tail hne)).1
      refine ⟨fun w => ?_, ?_⟩
      · simp only [fieldsLoop, hsp', Bool.false_eq_true, if_false, collapseChars]
        rw [ih', bytesOf_cons, List.append_assoc]
      · simp only [fieldsLoop, hsp', Bool.false_eq_true, if_false, collapseChars]
        rw [ih', bytesOf_cons]

theorem collapseChars_of_starts (ts : List Tok) (h : StartsNonSpace ts) :
    collapseChars true ts = collapseChars false ts := by
  cases ts with
  | nil => rfl
  | cons t ts =>
    have := h t rfl
    simp [collapseChars, this]

theorem space_replaceTok (c : Tok) :
    (if c.rune ∈ unsafeChars then (⟨0x2D, [0x2D]⟩ : Tok) else c).space = c.space := by
  split
  · rename_i h
    simp only [unsafeChars, List.mem_cons, List.mem_singleton, List.not_mem_nil, or_false] at h
    rcases h with e | e | e | e | e | e | e | e | e <;> simp [Tok.space, e, IsSpace]
  · rfl

theorem endsNonSpace_replace_trim (cs : List Tok) : EndsNonSpace (replaceChars (trimChars cs)) := by
  intro t ht
  unfold replaceChars at ht
  rw [List.getLast?_map] at ht
  obtain ⟨c, hc, rfl⟩ := Option.map_eq_some'.mp ht
  rw [space_replaceTok]
  have hne : trimChars cs ≠ [] := by
    intro e
    rw [e] at hc
    simp at hc
  have := List.rdropWhile_last_not Tok.space (cs.dropWhile Tok.space) hne
  rw [List.getLast?_eq_getLast _ hne] at hc
  injection hc with hc
  rw [← hc]
  simpa [trimChars] using this

theorem startsNonSpace_replace_trim (cs : List Tok) : StartsNonSpace (replaceChars (trimChars cs)) := by
  intro t ht
  unfold replaceChars at ht
  rw [List.head?_map] at ht
  obtain ⟨c, hc, rfl⟩ := Option.map_eq_some'.mp ht
  rw [space_replaceTok]
  have hne : trimChars cs ≠ [] := by
    intro e
    rw [e] at hc
    simp at hc
  have hpre : trimChars cs <+: cs.dropWhile Tok.space := List.rdropWhile_prefix _ _
  have hhead := hpre.head hne
  have hnot := List.head_dropWhile_not Tok.space cs (hpre.ne_nil hne)
  rw [List.head?_eq_head hne] at hc
  injection hc with hc
  rw [← hc, hhead]
  exact hnot

theorem join_fields_replace_trim (goos : GOOS) (s : GoString) :
    Join (Fields ((TrimSpace s).map (replUnsafe goos))) (lit " ") =
      bytesOf (collapseChars false (replaceChars (trimChars (range s)))) := by
  have hl : lit " " = [0x20] := by decide
  rw [hl, Fields, range_replace_trim,
    (join_fieldsLoop _ (endsNonSpace_replace_trim _)).2,
    collapseChars_of_starts _ (startsNonSpace_replace_trim _)]

/-- C2 (amended): for every input string `s`, `sanitizeFileName(s)` equals the
reference definition applied in this order: trim leading and trailing white
space, replace every `/ \ : * ? " < > |` with `-`, collapse every internal
white-space run to a single space, then keep the first 200 bytes of the
UTF-8 encoding of that string. -/
theorem sanitizeFileName_eq_specSanitizeBytes (goos : GOOS) (s : GoString) :
    sanitizeFileName goos s = specSanitizeBytes s := by
  rw [sanitizeFileName_eq, join_fields_replace_trim, specSanitizeBytes]

set_option maxRecDepth 100000 in
/-- C2 as stated fails: on 67 copies of `あ` (201 bytes) the code keeps 200
bytes, which are 66 characters and two bytes of the 67th, where the
reference keeps the whole string of 67 characters. -/
theorem sanitizeFileName_ne_specSanitize :
    sanitizeFileName .other kanaTitle =
        (List.replicate 66 [0xE3, 0x81, 0x82]).flatten ++ [0xE3, 0x81] ∧
      specSanitize kanaTitle = kanaTitle ∧
      sanitizeFileName .other kanaTitle ≠ specSanitize kanaTitle := by
  decide

/-! ## `sanitizeFileName`: the truncation after the trim -/

set_option maxRecDepth 100000 in
/-- C3 fails on the code: on the title `longTitle`, whose byte 200 is the
space before its last word, the 200 bytes that `sanitizeFileName` keeps end
with that space, a white-space character. -/
theorem sanitizeFileName_trailing_space :
    sanitizeFileName .other longTitle =
        (List.replicate 66 [0xE3, 0x81, 0x82]).flatten ++ lit "a " ∧
      ((range (sanitizeFileName .other longTitle)).getLast?.map Tok.space) = some true := by
  decide

set_option maxRecDepth 100000 in
/-- C4 fails on the code: on the title `longTitle`, sanitizing the sanitized
name removes the trailing space that the truncation left. -/
theorem sanitizeFileName_not_idempotent :
    sanitizeFileName .other (sanitizeFileName .other longTitle) =
        (List.replicate 66 [0xE3, 0x81, 0x82]).flatten ++ lit "a" ∧
      sanitizeFileName .other (sanitizeFileName .other longTitle) ≠
        sanitizeFileName .other longTitle := by
  decide

/-! ## `convertToMP3` -/

/-- C7: for every input path, output path, title and artist, the arguments
`convertToMP3` passes to the transcoder are `-y -hide_banner -loglevel warning
-nostdin -i <input> -vn -codec:a libmp3lame -b:a 128k -ar 44100 -ac 2
-threads <N>`, then `-metadata title=<title>` exactly when the title is not
empty, then `-metadata artist=<artist>` exactly when the artist is not empty,
then `-id3v2_version 3 <output>`; the output path is the last argument. -/
theorem convertToMP3_args (numCPU : Nat) (inputPath outputPath ffmpegPath title artist : GoString) :
    (convertToMP3 numCPU inputPath outputPath ffmpegPath title artist).Path = ffmpegPath ∧
    (convertToMP3 numCPU inputPath outputPath ffmpegPath title artist).Args =
      [lit "-y", lit "-hide_banner", lit "-loglevel", lit "warning", lit "-nostdin",
        lit "-i", inputPath, lit "-vn", lit "-codec:a", lit "libmp3lame", lit "-b:a",
        lit "128k", lit "-ar", lit "44100", lit "-ac", lit "2", lit "-threads",
        formatInt numCPU] ++
      (if title = [] then [] else [lit "-metadata", lit "title=" ++ title]) ++
      (if artist = [] then [] else [lit "-metadata", lit "artist=" ++ artist]) ++
      [lit "-id3v2_version", lit "3", outputPath] ∧
    (convertToMP3 numCPU inputPath outputPath ffmpegPath title artist).Args.getLast? =
      some outputPath := by
  refine ⟨rfl, ?_, ?_⟩
  · simp only [convertToMP3, convertToMP3Args]
    by_cases ht : title = [] <;> by_cases ha : artist = [] <;> simp [ht, ha]
  · simp only [convertToMP3, convertToMP3Args]
    simp [List.getLast?_append]

/-! ## `extractFFmpegOnce` -/

theorem firstCandidate_eq_find (env : FFmpegEnv) (exeDir : GoString) (names : List GoString) :
    firstCandidate env exeDir names =
      (names.map (env.JoinPath exeDir)).find? (fun p => env.Stat p = some false) := by
  induction names with
  | nil => rfl
  | cons n rest ih =>
    simp only [firstCandidate, List.map_cons, List.find?_cons]
    cases h : env.Stat (env.JoinPath exeDir n) with
    | none => simpa using ih
    | some b =>
      cases b with
      | false => simp
      | true => simpa using ih

theorem sidecar_eq_find (env : FFmpegEnv) (exeDir : GoString) :
    sidecarCandidate env exeDir =
      (ffmpegCandidates env exeDir).find? (fun p => env.Stat p = some false) := by
  have e : ffmpegCandidates env exeDir =
      [lit "vendor/ffmpeg", lit "vendor/ffmpeg.exe"].map (env.JoinPath exeDir) ++
        [lit "ffmpeg", lit "ffmpeg.exe"].map (env.JoinPath exeDir) := rfl
  rw [e, List.find?_append, sidecarCandidate, firstCandidate_eq_find, firstCandidate_eq_find]
  cases List.find? (fun p => decide (env.Stat p = some false))
    ([lit "vendor/ffmpeg", lit "vendor/ffmpeg.exe"].map (env.JoinPath exeDir)) <;> rfl

theorem extractFFmpegOnce_init (env : FFmpegEnv) (exe : GoString) (h : env.Executable = some exe) :
    (extractFFmpegOnce env FFmpegOnce.init).2 =
      match (ffmpegCandidates env (env.Dir exe)).find? (fun p => env.Stat p = some false) with
      | some cand => (cand, none)
      | none =>
        match env.LookPath (lit "ffmpeg") with
        | some sysPath => (sysPath, none)
        | none => ([], some ffmpegNotFound) := by
  simp only [extractFFmpegOnce, FFmpegOnce.init, resolveFFmpeg, h, sidecar_eq_find]
  cases (ffmpegCandidates env (env.Dir exe)).find? (fun p => decide (env.Stat p = some false)) with
  | some c => rfl
  | none =>
    cases env.LookPath (lit "ffmpeg") <;> rfl

/-- C6: the first resolution of `extractFFmpegOnce`, with the executable in
`exeDir`, returns the first candidate among `exeDir/vendor/ffmpeg`,
`exeDir/vendor/ffmpeg.exe`, `exeDir/ffmpeg`, `exeDir/ffmpeg.exe` that exists
and is not a directory, else the result of the PATH lookup; when such a
candidate exists the result does not depend on the PATH lookup; when there is
none and the lookup fails it returns the empty path and the error
`ffmpeg not found: ...`. -/
theorem extractFFmpegOnce_first (env : FFmpegEnv) (exe : GoString)
    (hexe : env.Executable = some exe) :
    ((extractFFmpegOnce env FFmpegOnce.init).2 =
      match (ffmpegCandidates env (env.Dir exe)).find? (fun p => env.Stat p = some false) with
      | some cand => (cand, none)
      | none =>
        match env.LookPath (lit "ffmpeg") with
        | some sysPath => (sysPath, none)
        | none => ([], some ffmpegNotFound)) ∧
    ((∃ c ∈ ffmpegCandidates env (env.Dir exe), env.Stat c = some false) →
      ∀ lookPath : GoString → Option GoString,
        (extractFFmpegOnce { env with LookPath := lookPath } FFmpegOnce.init).2 =
          (extractFFmpegOnce env FFmpegOnce.init).2) ∧
    ((∀ c ∈ ffmpegCandidates env (env.Dir exe), env.Stat c ≠ some false) →
      env.LookPath (lit "ffmpeg") = none →
        (extractFFmpegOnce env FFmpegOnce.init).2 = ([], some ffmpegNotFound) ∧
          lit "ffmpeg not found" <+: ffmpegNotFound) := by
  refine ⟨extractFFmpegOnce_init env exe hexe, ?_, ?_⟩
  · rintro ⟨c, hc, hs⟩ lookPath
    rw [extractFFmpegOnce_init env exe hexe,
      extractFFmpegOnce_init { env with LookPath := lookPath } exe hexe]
    have e : ffmpegCandidates { env with LookPath := lookPath } (env.Dir exe) =
        ffmpegCandidates env (env.Dir exe) := rfl
    simp only [e]
    cases hf : (ffmpegCandidates env (env.Dir exe)).find? (fun p => decide (env.Stat p = some false)) with
    | some c' => rfl
    | none =>
      have := List.find?_eq_none.mp hf c hc
      simp [hs] at this
  · intro hnone hlp
    constructor
    · rw [extractFFmpegOnce_init env exe hexe]
      have hf : (ffmpegCandidates env (env.Dir exe)).find?
          (fun p => decide (env.Stat p = some false)) = none := by
        apply List.find?_eq_none.mpr
        intro c hc
        simpa using hnone c hc
      rw [hf, hlp]
    · decide

/-- With the file `/opt/app/ffmpeg` next to the executable, the resolution
returns it, with or without an `ffmpeg` on PATH. -/
theorem extractFFmpegOnce_first_witness :
    (extractFFmpegOnce sidecarEnv FFmpegOnce.init).2 = (lit "/opt/app/ffmpeg", none) ∧
      (extractFFmpegOnce { sidecarEnv with LookPath := fun _ => none } FFmpegOnce.init).2 =
        (extractFFmpegOnce sidecarEnv FFmpegOnce.init).2 := by
  have h := extractFFmpegOnce_first sidecarEnv (lit "/opt/app/mp3download") rfl
  refine ⟨by decide, h.2.1 ⟨lit "/opt/app/ffmpeg", by decide, by decide⟩ _⟩

/-! ## The convert stage: output paths -/

/-- C9 fails on the code: two fetched items from the distinct URLs `u1` and
`u2`, both titled `a`, are converted to the same output path, the one
`filepath.Join` makes of `out` and `a.mp3` (`out/a.mp3`), on every
operating system. -/
theorem convertOutPath_collision (goos : GOOS) (join : GoString → GoString → GoString) :
    (⟨lit "u1", lit "tmp/a.mp4", lit "a", lit "x", none⟩ : dlResult).link ≠
        (⟨lit "u2", lit "tmp/a-1.mp4", lit "a", lit "y", none⟩ : dlResult).link ∧
      convertOutPath goos join (lit "out") ⟨lit "u1", lit "tmp/a.mp4", lit "a", lit "x", none⟩ =
        join (lit "out") (lit "a.mp3") ∧
      convertOutPath goos join (lit "out") ⟨lit "u2", lit "tmp/a-1.mp4", lit "a", lit "y", none⟩ =
        join (lit "out") (lit "a.mp3") := by
  have hs : sanitizeFileName goos (lit "a") = lit "a" := by
    cases goos <;> decide
  have hne : lit "a" ≠ ([] : GoString) := by decide
  have hcat : lit "a" ++ lit ".mp3" = lit "a.mp3" := by decide
  refine ⟨by decide, ?_, ?_⟩ <;> simp only [convertOutPath, hs, if_neg hne, hcat]

/-! ## The list mode of `main`: the temporary directory -/

theorem mainListMode_returned (ffmpeg : FFmpegEnv) (results : List dlResult)
    (h : (extractFFmpegOnce ffmpeg FFmpegOnce.init).2.2 = none) :
    mainListMode ffmpeg results = (.returned, ⟨false, false⟩) := by
  simp only [mainListMode, h]
  split <;> rfl

theorem mainListMode_fatal (ffmpeg : FFmpegEnv) (results : List dlResult) (e : GoString)
    (h : (extractFFmpegOnce ffmpeg FFmpegOnce.init).2.2 = some e) :
    mainListMode ffmpeg results = (.osExit 1, ⟨true, true⟩) := by
  simp only [mainListMode, h]
  rfl

/-- C5 fails on the code: when no `ffmpeg` is found, `main` leaves list mode
through `log.Fatalf`, that is `os.Exit(1)`, the deferred `os.RemoveAll(tempDir)`
is not run and the temporary directory still exists. -/
theorem mainListMode_fatal_keeps_tempDir (results : List dlResult) :
    mainListMode noFFmpegEnv results = (.osExit 1, ⟨true, true⟩) ∧
      (mainListMode noFFmpegEnv results).2.tempDirExists = true := by
  have h : (extractFFmpegOnce noFFmpegEnv FFmpegOnce.init).2.2 = some ffmpegNotFound := by decide
  rw [mainListMode_fatal noFFmpegEnv results _ h]
  exact ⟨rfl, rfl⟩

/-! ## The unique file name of `downloadVideoToDir` -/

theorem digitsValue_formatIntAux (fuel : Nat) : ∀ n, n < fuel →
    digitsValue (formatIntAux fuel n) = n := by
  induction fuel with
  | zero => intro n h; omega
  | succ f ih =>
    intro n h
    simp only [formatIntAux]
    split
    · simp [digitsValue]
    · have := ih (n / 10) (by omega)
      simp only [digitsValue, List.foldl_append, List.foldl_cons, List.foldl_nil] at this ⊢
      rw [this]
      omega

theorem formatInt_injective : Function.Injective formatInt := by
  intro a b h
  have ha := digitsValue_formatIntAux (a + 1) a (by omega)
  have hb := digitsValue_formatIntAux (b + 1) b (by omega)
  unfold formatInt at h
  rw [h] at ha
  omega

theorem candidatePath_injective (goos : GOOS) (destDir base ext : GoString) :
    Function.Injective (candidatePath goos destDir base ext) := by
  have hdot : lit "." = [46] := by decide
  have hdash : lit "-" = [45] := by decide
  intro a b h
  unfold candidatePath filepathJoin plainName suffixedName at h
  rw [hdot, hdash] at h
  by_cases ha : a = 0 <;> by_cases hb : b = 0
  · omega
  · rw [if_pos ha, if_neg hb] at h
    have := List.append_cancel_left h
    simp only [List.cons.injEq, true_and, List.append_assoc] at this
    have := List.append_cancel_left this
    simp at this
  · rw [if_neg ha, if_pos hb] at h
    have := List.append_cancel_left h
    simp only [List.cons.injEq, true_and, List.append_assoc] at this
    have := List.append_cancel_left this
    simp at this
  · rw [if_neg ha, if_neg hb] at h
    have := List.append_cancel_left h
    simp only [List.cons.injEq, true_and] at this
    have h2 : base ++ [45] ++ formatInt a ++ ([46] ++ ext) =
        base ++ [45] ++ formatInt b ++ ([46] ++ ext) := by
      simpa [List.append_assoc] using this
    have h3 := List.append_cancel_right h2
    have h4 : formatInt a = formatInt b :=
      List.append_cancel_left
        (show (base ++ [45]) ++ formatInt a = (base ++ [45]) ++ formatInt b by
          simpa [List.append_assoc] using h3)
    exact formatInt_injective h4

theorem uniquePathLoop_succ (goos : GOOS) (stat : GoString → StatOutcome)
    (destDir base ext : GoString) (fuel k : Nat) :
    uniquePathLoop goos stat destDir base ext (fuel + 1) (k + 1)
        (candidatePath goos destDir base ext k) =
      if stat (candidatePath goos destDir base ext k) = .notExist then
        some (candidatePath goos destDir base ext k)
      else uniquePathLoop goos stat destDir base ext fuel (k + 2)
        (candidatePath goos destDir base ext (k + 1)) := by
  simp only [uniquePathLoop]
  rfl

theorem uniquePathLoop_eq (goos : GOOS) (stat : GoString → StatOutcome)
    (destDir base ext : GoString) (k : Nat)
    (hk : stat (candidatePath goos destDir base ext k) = .notExist) :
    ∀ (d k0 fuel : Nat), k0 + d = k → d < fuel →
      (∀ j, k0 ≤ j → j < k → stat (candidatePath goos destDir base ext j) ≠ .notExist) →
      uniquePathLoop goos stat destDir base ext fuel (k0 + 1)
        (candidatePath goos destDir base ext k0) = some (candidatePath goos destDir base ext k) := by
  intro d
  induction d with
  | zero =>
    intro k0 fuel hk0 hf _
    obtain ⟨f, rfl⟩ : ∃ f, fuel = f + 1 := ⟨fuel - 1, by omega⟩
    have : k0 = k := by omega
    subst this
    rw [uniquePathLoop_succ, if_pos hk]
  | succ d ih =>
    intro k0 fuel hk0 hf hall
    obtain ⟨f, rfl⟩ : ∃ f, fuel = f + 1 := ⟨fuel - 1, by omega⟩
    rw [uniquePathLoop_succ, if_neg (hall k0 le_rfl (by omega))]
    exact ih (k0 + 1) f (by omega) (by omega) (fun j h1 h2 => hall j (by omega) h2)

theorem exists_free_candidate (goos : GOOS) (files : List GoString) (destDir base ext : GoString) :
    ∃ k, k ≤ files.length ∧ candidatePath goos destDir base ext k ∉ files := by
  by_contra hcon
  push_neg at hcon
  have hsub : (List.range (files.length + 1)).map (candidatePath goos destDir base ext) ⊆ files := by
    intro p hp
    obtain ⟨k, hk, rfl⟩ := List.mem_map.mp hp
    exact hcon k (by have := List.mem_range.mp hk; omega)
  have hnd : ((List.range (files.length + 1)).map (candidatePath goos destDir base ext)).Nodup :=
    (List.nodup_range _).map (candidatePath_injective goos destDir base ext)
  have := (List.subperm_of_subset hnd hsub).length_le
  simp at this

theorem uniquePath_least (goos : GOOS) (stat : GoString → StatOutcome) (files : List GoString)
    (destDir base ext : GoString)
    (hstat : ∀ k, stat (candidatePath goos destDir base ext k) = .notExist ↔
      candidatePath goos destDir base ext k ∉ files) :
    ∃ k, (∀ fuel, files.length < fuel →
        uniquePath goos stat destDir base ext fuel = some (candidatePath goos destDir base ext k)) ∧
      candidatePath goos destDir base ext k ∉ files ∧
      ∀ j, j < k → candidatePath goos destDir base ext j ∈ files := by
  classical
  have hex := exists_free_candidate goos files destDir base ext
  have hmin : ∀ j, j < Nat.find hex → candidatePath goos destDir base ext j ∈ files := by
    intro j hj
    by_contra hnot
    exact Nat.find_min hex hj ⟨by have := (Nat.find_spec hex).1; omega, hnot⟩
  refine ⟨Nat.find hex, ?_, (Nat.find_spec hex).2, hmin⟩
  intro fuel hfuel
  have h0 : filepathJoin goos destDir (plainName base ext) =
      candidatePath goos destDir base ext 0 := rfl
  unfold uniquePath
  rw [h0]
  apply uniquePathLoop_eq goos stat destDir base ext (Nat.find hex)
    ((hstat _).mpr (Nat.find_spec hex).2)
    (Nat.find hex) 0 fuel (by omega) (by have := (Nat.find_spec hex).1; omega)
  intro j _ hj hne
  exact (hstat j).mp hne (hmin j hj)

theorem formatIntAux_ne_zero (fuel : Nat) : ∀ n, 0 ∉ formatIntAux fuel n := by
  induction fuel with
  | zero => intro n; simp [formatIntAux]
  | succ f ih =>
    intro n
    simp only [formatIntAux]
    split
    · simp only [List.mem_singleton]
      omega
    · have := ih (n / 10)
      simp only [List.mem_append, List.mem_singleton, not_or]
      exact ⟨this, by omega⟩

theorem candidatePath_no_nul (goos : GOOS) {destDir base ext : GoString} (hd : 0 ∉ destDir)
    (hb : 0 ∉ base) (he : 0 ∉ ext) (k : Nat) : 0 ∉ candidatePath goos destDir base ext k := by
  have hdot : lit "." = [46] := by decide
  have hdash : lit "-" = [45] := by decide
  have hsep : (0 : Nat) ≠ PathSeparator goos := by cases goos <;> simp [PathSeparator]
  have hf : 0 ∉ formatInt k := formatIntAux_ne_zero _ _
  unfold candidatePath filepathJoin plainName suffixedName
  rw [hdot, hdash]
  split <;> simp [hd, hb, he, hf, hsep]

theorem osStat_candidate (goos : GOOS) (files : List GoString) {destDir base ext : GoString}
    (hd : 0 ∉ destDir) (hb : 0 ∉ base) (he : 0 ∉ ext) (k : Nat) :
    osStat files (candidatePath goos destDir base ext k) = .notExist ↔
      candidatePath goos destDir base ext k ∉ files := by
  unfold osStat
  rw [if_neg (candidatePath_no_nul goos hd hb he k)]
  split <;> simp [*]

/-- When `os.Stat` never fails with another error than `IsNotExist`, here
for names without a NUL byte, the loop of `downloadVideoToDir` ends within
`files.length + 1` iterations on a path `p` that does not exist: the plain
`base.ext` when that is free, else `base-i.ext` for the least `i ≥ 1` that
is free; and the next item with the same base name and extension, fetched
after `p` was created, gets a path `q` different from `p`, with a suffix. -/
theorem uniquePath_without_stat_error (goos : GOOS) (files : List GoString)
    (destDir base ext : GoString) (hd : 0 ∉ destDir) (hb : 0 ∉ base) (he : 0 ∉ ext) :
    ∃ p,
      (∀ fuel, files.length < fuel →
        uniquePath goos (osStat files) destDir base ext fuel = some p) ∧
      p ∉ files ∧
      (filepathJoin goos destDir (plainName base ext) ∉ files →
        p = filepathJoin goos destDir (plainName base ext)) ∧
      (filepathJoin goos destDir (plainName base ext) ∈ files →
        ∃ i, 1 ≤ i ∧ p = filepathJoin goos destDir (suffixedName base i ext) ∧
          ∀ j, 1 ≤ j → j < i → filepathJoin goos destDir (suffixedName base j ext) ∈ files) ∧
      ∃ q,
        (∀ fuel, (p :: files).length < fuel →
          uniquePath goos (osStat (p :: files)) destDir base ext fuel = some q) ∧
        q ≠ p ∧ q ∉ files ∧
        ∃ i, 1 ≤ i ∧ q = filepathJoin goos destDir (suffixedName base i ext) := by
  obtain ⟨k, hrun, hfree, hmin⟩ := uniquePath_least goos (osStat files) files destDir base ext
    (osStat_candidate goos files hd hb he)
  have hplain : candidatePath goos destDir base ext 0 =
      filepathJoin goos destDir (plainName base ext) := rfl
  have hsuf : ∀ i, 1 ≤ i → candidatePath goos destDir base ext i =
      filepathJoin goos destDir (suffixedName base i ext) := by
    intro i hi
    unfold candidatePath
    rw [if_neg (by omega)]
  refine ⟨candidatePath goos destDir base ext k, hrun, hfree, ?_, ?_, ?_⟩
  · intro h0
    rw [← hplain] at h0 ⊢
    have : k = 0 := by
      by_contra hk
      exact h0 (hmin 0 (by omega))
    rw [this]
  · intro h0
    rw [← hplain] at h0
    have hk : 1 ≤ k := by
      by_contra hk
      have : k = 0 := by omega
      rw [this] at hfree
      exact hfree h0
    refine ⟨k, hk, hsuf k hk, ?_⟩
    intro j hj1 hjk
    rw [← hsuf j hj1]
    exact hmin j hjk
  · obtain ⟨m, hrun', hfree', hmin'⟩ :=
      uniquePath_least goos (osStat (candidatePath goos destDir base ext k :: files))
        (candidatePath goos destDir base ext k :: files) destDir base ext
        (osStat_candidate goos _ hd hb he)
    have hm : 1 ≤ m := by
      by_contra hm0
      have hm0' : m = 0 := by omega
      rw [hm0'] at hfree'
      apply hfree'
      by_cases hk : k = 0
      · rw [hk]
        exact List.mem_cons_self _ _
      · exact List.mem_cons_of_mem _ (hmin 0 (by omega))
    refine ⟨candidatePath goos destDir base ext m, hrun', ?_, ?_, m, hm, hsuf m hm⟩
    · intro e
      exact hfree' (by rw [e]; exact List.mem_cons_self _ _)
    · intro hin
      exact hfree' (List.mem_cons_of_mem _ hin)

theorem uniquePathLoop_stat_failed (goos : GOOS) (files : List GoString)
    (destDir base ext : GoString) (hb : 0 ∈ base) :
    ∀ (fuel i : Nat) (outPath : GoString), 0 ∈ outPath →
      uniquePathLoop goos (osStat files) destDir base ext fuel i outPath = none := by
  intro fuel
  induction fuel with
  | zero => intro i outPath _; rfl
  | succ f ih =>
    intro i outPath hp
    have hst : osStat files outPath = .failed := by simp [osStat, hp]
    simp only [uniquePathLoop, hst, reduceCtorEq, if_false]
    apply ih
    simp [filepathJoin, suffixedName, hb]

/-- C8 fails on the code: for the title `a`, NUL, `b`, which
`sanitizeFileName` keeps as it is, and an empty temporary directory,
`os.Stat` fails on the first path with an error that is not `IsNotExist`
although no file exists, and the loop of `downloadVideoToDir` has not ended
after any number of iterations. -/
theorem uniquePath_never_ends_on_stat_error (fuel : Nat) :
    sanitizeFileName .other [0x61, 0, 0x62] = [0x61, 0, 0x62] ∧
      osStat [] (filepathJoin .other (lit "tmp") (plainName [0x61, 0, 0x62] (lit "mp4"))) =
        .failed ∧
      uniquePath .other (osStat []) (lit "tmp") [0x61, 0, 0x62] (lit "mp4") fuel = none := by
  refine ⟨by decide, by decide, ?_⟩
  unfold uniquePath
  apply uniquePathLoop_stat_failed
  · decide
  · decide

/-! ## The worker pools: invariants, termination, progress -/

theorem getElem?_decomp {W : Type} {l : List W} {i : Nat} {w : W} (h : l[i]? = some w) :
    ∃ l1 l2, l = l1 ++ w :: l2 ∧ ∀ w', l.set i w' = l1 ++ w' :: l2 := by
  induction l generalizing i with
  | nil => simp at h
  | cons x xs ih =>
    cases i with
    | zero =>
      simp at h
      subst h
      exact ⟨[], xs, rfl, fun _ => rfl⟩
    | succ i =>
      simp at h
      obtain ⟨l1, l2, e, hs⟩ := ih h
      refine ⟨x :: l1, l2, by simp [e], fun w' => ?_⟩
      simp [hs w']

theorem Pool.step_measure {α β ω : Type} (mk : α → ω → β) {p q : Pool α β} {a : Action ω}
    (h : p.step mk a = some q) : q.measure + 1 = p.measure := by
  cases a with
  | send i =>
    simp only [Pool.step] at h
    split at h
    · rename_i a rest hj hw
      injection h with h
      subst h
      obtain ⟨l1, l2, e, hs⟩ := getElem?_decomp hw
      simp only [Pool.measure, hs, hj]
      rw [e]
      simp [Worker.weight]
      omega
    · exact absurd h (by simp)
  | closeJobs =>
    simp only [Pool.step] at h
    split at h
    · rename_i hc
      injection h with h
      subst h
      simp only [Bool.and_eq_true, Bool.not_eq_true', List.isEmpty_iff] at hc
      simp only [Pool.measure, hc.2]
      simp
      omega
    · exact absurd h (by simp)
  | finish i o =>
    simp only [Pool.step] at h
    split at h
    · rename_i a hw
      injection h with h
      subst h
      obtain ⟨l1, l2, e, hs⟩ := getElem?_decomp hw
      simp only [Pool.measure, hs]
      rw [e]
      simp [Worker.weight]
      omega
    · exact absurd h (by simp)
  | deliver i =>
    simp only [Pool.step] at h
    split at h
    · rename_i r hw
      injection h with h
      subst h
      obtain ⟨l1, l2, e, hs⟩ := getElem?_decomp hw
      simp only [Pool.measure, hs]
      rw [e]
      simp [Worker.weight]
      omega
    · exact absurd h (by simp)
  | exit i =>
    simp only [Pool.step] at h
    split at h
    · rename_i hw
      split at h
      · injection h with h
        subst h
        obtain ⟨l1, l2, e, hs⟩ := getElem?_decomp hw
        simp only [Pool.measure, hs]
        rw [e]
        simp [Worker.weight]
        omega
      · exact absurd h (by simp)
    · exact absurd h (by simp)
  | wait =>
    simp only [Pool.step] at h
    split at h
    · rename_i hc
      injection h with h
      subst h
      simp only [Bool.and_eq_true, Bool.not_eq_true'] at hc
      simp only [Pool.measure, hc.2]
      simp
    · exact absurd h (by simp)

theorem Pool.run_measure {α β ω : Type} (mk : α → ω → β) (sched : List (Action ω)) :
    ∀ {p q : Pool α β}, Pool.run mk p sched = some q → q.measure + sched.length = p.measure := by
  induction sched with
  | nil =>
    intro p q h
    simp only [Pool.run, Option.some.injEq] at h
    subst h
    rfl
  | cons a rest ih =>
    intro p q h
    simp only [Pool.run] at h
    split at h
    · rename_i p' hp
      have h1 := Pool.step_measure mk hp
      have h2 := ih h
      simp only [List.length_cons]
      omega
    · exact absurd h (by simp)

theorem Pool.init_measure {α β : Type} (input : List α) (n : Nat) :
    (Pool.init input n : Pool α β).measure = 3 * input.length + n + 2 := by
  simp [Pool.init, Pool.measure, Worker.weight]

theorem Pool.init_inv {α β : Type} (jobOf : β → α) (input : List α) (n : Nat) :
    Pool.Inv jobOf input n (Pool.init input n : Pool α β) := by
  refine ⟨?_, ?_, ?_, ?_, ?_⟩
  · have : ((List.replicate n (Worker.idle : Worker α β)).map (Worker.held jobOf)).sum = 0 := by
      induction n with
      | zero => rfl
      | succ n ih => simp [List.replicate_succ, Worker.held, ih]
    simp only [Pool.init]
    rw [this]
    simp
  · intro h
    simp [Pool.init] at h
  · intro h
    simp [Pool.init] at h
  · intro h
    simp [Pool.init] at h
  · simp [Pool.init]

theorem held_sum_set {α β : Type} (jobOf : β → α) {l l1 l2 : List (Worker α β)}
    {w : Worker α β} (e : l = l1 ++ w :: l2) (w' : Worker α β) :
    ((l1 ++ w' :: l2).map (Worker.held jobOf)).sum + Worker.held jobOf w =
      (l.map (Worker.held jobOf)).sum + Worker.held jobOf w' := by
  subst e
  simp only [List.map_append, List.map_cons, List.sum_append, List.sum_cons]
  abel

theorem Pool.step_inv {α β ω : Type} (mk : α → ω → β) (jobOf : β → α)
    (hjob : ∀ a o, jobOf (mk a o) = a) {input : List α} {n : Nat} {p q : Pool α β} {a : Action ω}
    (hp : Pool.Inv jobOf input n p) (h : p.step mk a = some q) : Pool.Inv jobOf input n q := by
  obtain ⟨hcount, hnil, hdc, hcd, hlen⟩ := hp
  cases a with
  | send i =>
    simp only [Pool.step] at h
    split at h
    · rename_i a rest hj hw
      injection h with h
      subst h
      obtain ⟨l1, l2, e, hs⟩ := getElem?_decomp hw
      have hsum := held_sum_set jobOf e (.busy a)
      simp only [Worker.held, add_zero] at hsum
      refine ⟨?_, ?_, ?_, ?_, ?_⟩
      · simp only [hs]
        rw [← hcount, hsum, hj, ← Multiset.cons_coe, ← Multiset.singleton_add]
        abel
      · intro hc
        have := hnil hc
        rw [hj] at this
        exact absurd this (by simp)
      · intro hd
        apply hdc
        simp only [hs, List.mem_append, List.mem_cons, reduceCtorEq, false_or] at hd
        rw [e]
        simp only [List.mem_append, List.mem_cons]
        tauto
      · intro hc w hwm
        have hall := hcd hc
        have : Worker.idle = (Worker.done : Worker α β) := hall _ (by rw [e]; simp)
        exact absurd this (by simp)
      · simpa [hs, e] using hlen
    · exact absurd h (by simp)
  | closeJobs =>
    simp only [Pool.step] at h
    split at h
    · rename_i hc
      injection h with h
      subst h
      simp only [Bool.and_eq_true, Bool.not_eq_true', List.isEmpty_iff] at hc
      exact ⟨hcount, fun _ => hc.1, fun _ => rfl, hcd, hlen⟩
    · exact absurd h (by simp)
  | finish i o =>
    simp only [Pool.step] at h
    split at h
    · rename_i a hw
      injection h with h
      subst h
      obtain ⟨l1, l2, e, hs⟩ := getElem?_decomp hw
      have hsum := held_sum_set jobOf e (.sending (mk a o))
      simp only [Worker.held, hjob] at hsum
      have hsum' := add_right_cancel hsum
      refine ⟨?_, hnil, ?_, ?_, ?_⟩
      · simp only [hs]
        rw [hsum']
        exact hcount
      · intro hd
        apply hdc
        simp only [hs, List.mem_append, List.mem_cons, reduceCtorEq, false_or] at hd
        rw [e]
        simp only [List.mem_append, List.mem_cons]
        tauto
      · intro hc w hwm
        have hall := hcd hc
        have : Worker.busy a = (Worker.done : Worker α β) := hall _ (by rw [e]; simp)
        exact absurd this (by simp)
      · simpa [hs, e] using hlen
    · exact absurd h (by simp)
  | deliver i =>
    simp only [Pool.step] at h
    split at h
    · rename_i r hw
      injection h with h
      subst h
      obtain ⟨l1, l2, e, hs⟩ := getElem?_decomp hw
      have hsum := held_sum_set jobOf e .idle
      simp only [Worker.held, add_zero] at hsum
      refine ⟨?_, hnil, ?_, ?_, ?_⟩
      · have e2 : (((p.out ++ [r]).map jobOf : List α) : Multiset α) =
            ((p.out.map jobOf : List α) : Multiset α) + {jobOf r} := by
          rw [List.map_append, ← Multiset.coe_add]
          rfl
        simp only [hs]
        rw [e2, ← hcount, ← hsum]
        abel
      · intro hd
        apply hdc
        simp only [hs, List.mem_append, List.mem_cons, reduceCtorEq, false_or] at hd
        rw [e]
        simp only [List.mem_append, List.mem_cons]
        tauto
      · intro hc w hwm
        have hall := hcd hc
        have : Worker.sending r = (Worker.done : Worker α β) := hall _ (by rw [e]; simp)
        exact absurd this (by simp)
      · simpa [hs, e] using hlen
    · exact absurd h (by simp)
  | exit i =>
    simp only [Pool.step] at h
    split at h
    · rename_i hw
      split at h
      · rename_i hjc
        injection h with h
        subst h
        obtain ⟨l1, l2, e, hs⟩ := getElem?_decomp hw
        have hsum := held_sum_set jobOf e .done
        simp only [Worker.held, add_zero] at hsum
        refine ⟨?_, hnil, fun _ => hjc, ?_, ?_⟩
        · simp only [hs]
          rw [hsum]
          exact hcount
        · intro hc w hwm
          have hall := hcd hc
          have : Worker.idle = (Worker.done : Worker α β) := hall _ (by rw [e]; simp)
          exact absurd this (by simp)
        · simpa [hs, e] using hlen
      · exact absurd h (by simp)
    · exact absurd h (by simp)
  | wait =>
    simp only [Pool.step] at h
    split at h
    · rename_i hc
      injection h with h
      subst h
      simp only [Bool.and_eq_true, Bool.not_eq_true', List.all_eq_true] at hc
      refine ⟨hcount, hnil, hdc, ?_, hlen⟩
      intro _ w hwm
      have := hc.1 w hwm
      cases w <;> simp [Worker.isDone] at this ⊢
    · exact absurd h (by simp)

theorem Pool.run_inv {α β ω : Type} (mk : α → ω → β) (jobOf : β → α)
    (hjob : ∀ a o, jobOf (mk a o) = a) {input : List α} {n : Nat} (sched : List (Action ω)) :
    ∀ {p q : Pool α β}, Pool.Inv jobOf input n p → Pool.run mk p sched = some q →
      Pool.Inv jobOf input n q := by
  induction sched with
  | nil =>
    intro p q hp h
    simp only [Pool.run, Option.some.injEq] at h
    subst h
    exact hp
  | cons a rest ih =>
    intro p q hp h
    simp only [Pool.run] at h
    split at h
    · rename_i p' hp'
      exact ih (Pool.step_inv mk jobOf hjob hp hp') h
    · exact absurd h (by simp)

theorem Pool.Inv.out_perm {α β : Type} {jobOf : β → α} {input : List α} {n : Nat} {p : Pool α β}
    (hp : Pool.Inv jobOf input n p) (hn : 1 ≤ n) (hc : p.closed = true) :
    (p.out.map jobOf).Perm input := by
  have hall := hp.closed_done hc
  have hsum : (p.workers.map (Worker.held jobOf)).sum = 0 := by
    apply List.sum_eq_zero
    intro x hx
    obtain ⟨w, hw, rfl⟩ := List.mem_map.mp hx
    rw [hall w hw]
    rfl
  have hne : p.workers ≠ [] := by
    intro e
    have := hp.len
    rw [e] at this
    simp at this
    omega
  obtain ⟨w, hw⟩ := List.exists_mem_of_ne_nil _ hne
  have hd : Worker.done ∈ p.workers := by
    rw [← hall w hw]
    exact hw
  have hj := hp.jobs_nil (hp.done_closed hd)
  have := hp.count
  rw [hsum, hj] at this
  simp only [Multiset.coe_nil, zero_add] at this
  exact Multiset.coe_eq_coe.mp this

theorem Pool.Inv.progress {α β ω : Type} [Inhabited ω] (mk : α → ω → β) {jobOf : β → α}
    {input : List α} {n : Nat} {p : Pool α β}
    (hp : Pool.Inv jobOf input n p) (hn : 1 ≤ n) (hc : p.closed = false) :
    ∃ a : Action ω, (p.step mk a).isSome = true := by
  classical
  have hne : p.workers ≠ [] := by
    intro e
    have := hp.len
    rw [e] at this
    simp at this
    omega
  by_cases hs : ∃ r, Worker.sending r ∈ p.workers
  · obtain ⟨r, hr⟩ := hs
    obtain ⟨i, hi⟩ := List.mem_iff_getElem?.mp hr
    exact ⟨.deliver i, by simp [Pool.step, hi]⟩
  by_cases hb : ∃ a, Worker.busy a ∈ p.workers
  · obtain ⟨a, ha⟩ := hb
    obtain ⟨i, hi⟩ := List.mem_iff_getElem?.mp ha
    exact ⟨.finish i default, by simp [Pool.step, hi]⟩
  by_cases hi : Worker.idle ∈ p.workers
  · obtain ⟨i, hi'⟩ := List.mem_iff_getElem?.mp hi
    cases hj : p.jobs with
    | cons a rest => exact ⟨.send i, by simp [Pool.step, hj, hi']⟩
    | nil =>
      cases hjc : p.jobsClosed with
      | false => exact ⟨.closeJobs, by simp [Pool.step, hj, hjc]⟩
      | true => exact ⟨.exit i, by simp [Pool.step, hi', hjc]⟩
  · have hall : ∀ w ∈ p.workers, w = Worker.done := by
      intro w hw
      cases w with
      | idle => exact absurd hw hi
      | busy a => exact absurd ⟨a, hw⟩ hb
      | sending r => exact absurd ⟨r, hw⟩ hs
      | done => rfl
    have hdone : p.workers.all Worker.isDone = true := by
      rw [List.all_eq_true]
      intro w hw
      rw [hall w hw]
      rfl
    exact ⟨.wait, by simp [Pool.step, hdone, hc]⟩

theorem Pool.Inv.completes {α β ω : Type} [Inhabited ω] (mk : α → ω → β) (jobOf : β → α)
    (hjob : ∀ a o, jobOf (mk a o) = a) {input : List α} {n : Nat} (hn : 1 ≤ n) (m : Nat) :
    ∀ p : Pool α β, Pool.Inv jobOf input n p → p.measure ≤ m →
      ∃ (rest : List (Action ω)) (q : Pool α β), Pool.run mk p rest = some q ∧ q.closed = true := by
  induction m with
  | zero =>
    intro p hp hm
    cases hc : p.closed with
    | true => exact ⟨[], p, rfl, hc⟩
    | false =>
      have : 1 ≤ p.measure := by
        simp only [Pool.measure, hc]
        simp
      omega
  | succ m ih =>
    intro p hp hm
    cases hc : p.closed with
    | true => exact ⟨[], p, rfl, hc⟩
    | false =>
      obtain ⟨a, ha⟩ := hp.progress mk hn hc
      obtain ⟨p', hp'⟩ := Option.isSome_iff_exists.mp ha
      have hdec := Pool.step_measure mk hp'
      obtain ⟨rest, q, hrun, hq⟩ := ih p' (Pool.step_inv mk jobOf hjob hp hp') (by omega)
      exact ⟨a :: rest, q, by simp [Pool.run, hp', hrun], hq⟩

theorem collectDownloaded_eq_filter (rs : List dlResult) :
    collectDownloaded rs = rs.filter (fun r => r.err = none) := by
  induction rs with
  | nil => rfl
  | cons r rest ih =>
    simp only [collectDownloaded, List.filter_cons, ih]
    by_cases h : r.err = none <;> simp [h]

theorem clampWorkers_pos (concurrency : Int) : 1 ≤ clampWorkers concurrency := by
  unfold clampWorkers
  split <;> omega

theorem Pool.reach {α β ω : Type} [Inhabited ω] (mk : α → ω → β) (jobOf : β → α)
    (hjob : ∀ a o, jobOf (mk a o) = a) (input : List α) (n : Nat) (hn : 1 ≤ n)
    (sched : List (Action ω)) (p : Pool α β) (hrun : Pool.run mk (Pool.init input n) sched = some p) :
    sched.length ≤ 3 * input.length + n + 2 ∧
      (p.closed = false → ∃ a : Action ω, (p.step mk a).isSome = true) ∧
      (∃ (rest : List (Action ω)) (q : Pool α β), Pool.run mk p rest = some q ∧ q.closed = true) ∧
      (p.closed = true → (p.out.map jobOf).Perm input) := by
  have hinv := Pool.run_inv mk jobOf hjob sched (Pool.init_inv jobOf input n) hrun
  have hm := Pool.run_measure mk sched hrun
  rw [Pool.init_measure] at hm
  exact ⟨by omega, hinv.progress mk hn,
    Pool.Inv.completes mk jobOf hjob hn p.measure p hinv le_rfl, hinv.out_perm hn⟩

/-- C10: for every list of URLs, every worker count (clamped to at least 1),
every outcome of the fetches and every schedule of the goroutines: a run of
the fetch stage has at most `3 * links + workers + 2` moves; as long as
`results` is not closed some goroutine can move, whatever the outcomes of
the other items were, and the run can be continued until `results` is
closed; once it is closed, `main` has received exactly one record per input
URL, `downloaded` holds exactly the records without error, each once, and
the convert stage, with the same properties, handles each record of
`downloaded` exactly once. -/
theorem pools_exactly_once (links : List GoString) (concurrency : Int)
    (sched : List (Action FetchOutcome)) (p : Pool GoString dlResult)
    (hrun : Pool.run fetchRecord (fetchInit links concurrency) sched = some p) :
    sched.length ≤ 3 * links.length + clampWorkers concurrency + 2 ∧
    (p.closed = false → ∃ a : Action FetchOutcome, (p.step fetchRecord a).isSome = true) ∧
    (∃ (rest : List (Action FetchOutcome)) (q : Pool GoString dlResult),
      Pool.run fetchRecord p rest = some q ∧ q.closed = true) ∧
    (p.closed = true →
      (p.out.map dlResult.link).Perm links ∧
      collectDownloaded p.out = p.out.filter (fun r => r.err = none) ∧
      ∀ (sched' : List (Action (Option GoString)))
        (q : Pool dlResult (dlResult × Option GoString)),
        Pool.run Prod.mk (convertInit (collectDownloaded p.out) concurrency) sched' = some q →
          sched'.length ≤ 3 * (collectDownloaded p.out).length + clampWorkers concurrency + 2 ∧
          (q.closed = false →
            ∃ a : Action (Option GoString), (q.step Prod.mk a).isSome = true) ∧
          (∃ (rest : List (Action (Option GoString)))
            (r : Pool dlResult (dlResult × Option GoString)),
            Pool.run Prod.mk q rest = some r ∧ r.closed = true) ∧
          (q.closed = true → (q.out.map Prod.fst).Perm (collectDownloaded p.out))) := by
  have hf := Pool.reach fetchRecord dlResult.link (fun _ _ => rfl) links (clampWorkers concurrency)
    (clampWorkers_pos concurrency) sched p hrun
  refine ⟨hf.1, hf.2.1, hf.2.2.1, fun hc => ⟨hf.2.2.2 hc, collectDownloaded_eq_filter _, ?_⟩⟩
  intro sched' q hq
  exact Pool.reach Prod.mk Prod.fst (fun _ _ => rfl) (collectDownloaded p.out)
    (clampWorkers concurrency) (clampWorkers_pos concurrency) sched' q hq

/-- The run `demoSchedule` of the fetch stage on two links: both records are
received, the one without error is kept. -/
theorem pools_exactly_once_witness :
    Pool.run fetchRecord (fetchInit [lit "u1", lit "u2"] 0) demoSchedule = some demoFinal ∧
      (demoFinal.out.map dlResult.link).Perm [lit "u1", lit "u2"] ∧
      collectDownloaded demoFinal.out = [⟨lit "u2", lit "tmp/b.mp4", lit "b", lit "c", none⟩] := by
  have hrun : Pool.run fetchRecord (fetchInit [lit "u1", lit "u2"] 0) demoSchedule =
      some demoFinal := by decide
  have h := pools_exactly_once [lit "u1", lit "u2"] 0 demoSchedule demoFinal hrun
  exact ⟨hrun, (h.2.2.2 rfl).1, by decide⟩

end Mp3Download
